import Mathlib

/-!
# Verification of the unilog lock-free logging ring buffer

Shallow embedding of `src/unilog.c` (sequential semantics: the CAS loop of
`unilog_write_internal` succeeds on its first iteration when no concurrent
producer interferes, so each operation is a pure state transformer).

Modelling conventions:
* C `uint32_t` arithmetic is `Nat` with explicit `% 2 ^ 32` where wrap-around
  can occur; positions are masked with `&&& (capacity - 1)` exactly as in C.
* The backing ring is a `List Nat` of byte values; `buffer[pos] = b` is
  `List.set`, reads use `List.getD _ _ 0`.
* Null pointers are modelled by `Option` (or a `Bool` flag for pure output
  pointers), a null argument being `none` / `false`.
* `struct unilog_entry_header_t` is 12 bytes (`uint32 length; uint32 level;
  uint32 timestamp`), serialized little-endian, as the spec's wire format
  states; `((uint8_t *)&header)[i]` for `i ∈ [4,12)` are the little-endian
  bytes of `level` and `timestamp`.
* The C padding loops `while (pos != target) { buffer[pos] = 0; ... }` run
  exactly `(target + C - pos) % C` iterations (both positions being in
  `[0, C)`), which is the iteration count used below.
* `unilog_read`'s byte loops read a byte and then zero it; they are modelled
  as a bulk read followed by a bulk zeroing write, which coincides with the
  C loops whenever the loop does not revisit a position (always the case for
  the entry sizes `≤ C/2` considered in the theorems below).
-/

set_option maxHeartbeats 1600000
set_option maxRecDepth 100000

/-- `unilog_result_t` values (a C enum, i.e. `int` constants). -/
def UNILOG_OK : Int := 0

/-- `UNILOG_ERR_FULL = -1`. -/
def UNILOG_ERR_FULL : Int := -1

/-- `UNILOG_ERR_INVALID = -2`. -/
def UNILOG_ERR_INVALID : Int := -2

/-- `UNILOG_ERR_EMPTY = -3`. -/
def UNILOG_ERR_EMPTY : Int := -3

/-- `UNILOG_ERR_BUSY = -4`. -/
def UNILOG_ERR_BUSY : Int := -4

/-- `unilog_level_t` values. -/
def UNILOG_LEVEL_TRACE : Nat := 0

/-- `UNILOG_LEVEL_DEBUG = 1`. -/
def UNILOG_LEVEL_DEBUG : Nat := 1

/-- `UNILOG_LEVEL_INFO = 2`. -/
def UNILOG_LEVEL_INFO : Nat := 2

/-- `UNILOG_LEVEL_WARN = 3`. -/
def UNILOG_LEVEL_WARN : Nat := 3

/-- `UNILOG_LEVEL_ERROR = 4`. -/
def UNILOG_LEVEL_ERROR : Nat := 4

/-- `UNILOG_LEVEL_FATAL = 5`. -/
def UNILOG_LEVEL_FATAL : Nat := 5

/-- `UNILOG_LEVEL_NONE = 6`. -/
def UNILOG_LEVEL_NONE : Nat := 6

/-- `unilog_buffer_t`: write/read positions, capacity, backing bytes. -/
structure unilog_buffer_t where
  write_pos : Nat
  read_pos : Nat
  capacity : Nat
  data : List Nat
deriving DecidableEq, Repr

/-- `unilog_t`: the ring buffer plus the atomic minimum level. -/
structure unilog_t where
  buffer : unilog_buffer_t
  min_level : Nat
deriving DecidableEq, Repr

/-- C helper `is_power_of_2`: `x > 0 && (x & (x - 1)) == 0`. -/
def is_power_of_2 (x : Nat) : Bool :=
  decide (0 < x) && decide (x &&& (x - 1) = 0)

/-- C helper `align_up`: `(size + 3) & ~3` in `uint32_t` arithmetic
(`~3 = 2^32 - 4`). -/
def align_up (size : Nat) : Nat :=
  ((size + 3) % 2 ^ 32) &&& (2 ^ 32 - 4)

/-- Little-endian byte serialization of a `uint32` value. -/
def le32 (x : Nat) : List Nat :=
  [x % 256, x / 2 ^ 8 % 256, x / 2 ^ 16 % 256, x / 2 ^ 24 % 256]

/-- Little-endian decoding of a byte list (reads a `uint32` when given
4 bytes). -/
def decodeLE : List Nat → Nat
  | [] => 0
  | b :: rest => b + 256 * decodeLE rest

/-- The C byte-store loop `buffer[pos] = b; pos = (pos + 1) & mask;` applied
to a list of bytes. -/
def ringWrite : List Nat → Nat → Nat → List Nat → List Nat
  | data, _, _, [] => data
  | data, mask, pos, b :: rest =>
      ringWrite (data.set (pos &&& mask) b) mask ((pos + 1) &&& mask) rest

/-- One ring byte: `buffer[pos & mask]`. -/
def ringGet (data : List Nat) (mask pos : Nat) : Nat :=
  data.getD (pos &&& mask) 0

/-- The C byte-load loop reading `n` consecutive ring bytes starting at
`pos`. -/
def ringBytes (data : List Nat) (mask : Nat) : Nat → Nat → List Nat
  | _, 0 => []
  | pos, n + 1 => ringGet data mask pos :: ringBytes data mask ((pos + 1) &&& mask) n

/-- Store a list of bytes into an ordinary (non-ring) output buffer starting
at index `i` (`buffer[i] = b`). -/
def writeAt : List Nat → Nat → List Nat → List Nat
  | out, _, [] => out
  | out, i, b :: rest => writeAt (out.set i b) (i + 1) rest

/-- `unilog_init`.  The two `Bool`s model non-nullness of `log` and `buffer`.
On success the returned state is the freshly initialized logger (positions 0,
threshold `TRACE`, all backing bytes zeroed by `memset`). -/
def unilog_init (log : Bool) (buffer : Bool) (capacity : Nat) :
    Int × Option unilog_t :=
  if !log || !buffer || !(is_power_of_2 capacity) then (UNILOG_ERR_INVALID, none)
  else
    (UNILOG_OK,
      some ⟨⟨0, 0, capacity, List.replicate capacity 0⟩, UNILOG_LEVEL_TRACE⟩)

/-- `unilog_set_level`: no-op on a null handle. -/
def unilog_set_level (log : Option unilog_t) (level : Nat) : Option unilog_t :=
  match log with
  | none => none
  | some l => some ⟨l.buffer, level⟩

/-- `unilog_get_level`: returns `UNILOG_LEVEL_NONE` on a null handle. -/
def unilog_get_level (log : Option unilog_t) : Nat :=
  match log with
  | none => UNILOG_LEVEL_NONE
  | some l => l.min_level

/-- `unilog_write_internal`.  `message = none` models a null payload
pointer; the list is the `msg_len`-byte payload (`msg_len = msg.length`).
The CAS loop is sequential, so it succeeds on its first iteration. -/
def unilog_write_internal (log : Option unilog_t) (level timestamp : Nat)
    (message : Option (List Nat)) : Int × Option unilog_t :=
  match log, message with
  | some l, some msg =>
    if level < l.min_level then (UNILOG_OK, some l)
    else
      let total_size := (12 + msg.length) % 2 ^ 32
      let advance_by := align_up total_size
      if l.buffer.capacity / 2 < total_size then (UNILOG_ERR_INVALID, some l)
      else
        let capacity := l.buffer.capacity
        let mask := capacity - 1
        let write_pos := l.buffer.write_pos
        let read_pos := l.buffer.read_pos
        let used := ((write_pos + 2 ^ 32 - read_pos) % 2 ^ 32) &&& mask
        let avail := capacity - used - 1
        if avail < advance_by then (UNILOG_ERR_FULL, some l)
        else
          let new_write_pos := (write_pos + advance_by) &&& mask
          let body := le32 level ++ le32 timestamp ++
              msg.map (fun b => b % 256) ++
              List.replicate (advance_by - total_size) 0
          let data1 := ringWrite l.buffer.data mask ((write_pos + 4) &&& mask) body
          let data2 := ringWrite data1 mask write_pos (le32 total_size)
          (UNILOG_OK, some ⟨⟨new_write_pos, read_pos, capacity, data2⟩, l.min_level⟩)
  | _, _ => (UNILOG_ERR_INVALID, log)

/-- `unilog_write_raw`: passes message bytes and length straight through. -/
def unilog_write_raw (log : Option unilog_t) (level timestamp : Nat)
    (message : Option (List Nat)) : Int × Option unilog_t :=
  unilog_write_internal log level timestamp message

/-- `unilog_write`: uses `strlen`, i.e. the bytes before the first NUL. -/
def unilog_write (log : Option unilog_t) (level timestamp : Nat)
    (message : Option (List Nat)) : Int × Option unilog_t :=
  match message with
  | none => (UNILOG_ERR_INVALID, log)
  | some msg =>
      unilog_write_internal log level timestamp (some (msg.takeWhile (· ≠ 0)))

/-- `unilog_format`.  `vsnprintf` is external (libc), so its would-be output
is a parameter: `rendered = none` models a negative `vsnprintf` return,
`rendered = some r` the full untruncated rendering, of which the 256-byte
stack buffer retains at most 255 bytes (`len` is clamped to 255 and the
buffer holds the first 255 characters). -/
def unilog_format (log : Option unilog_t) (level timestamp : Nat)
    (format : Option Unit) (rendered : Option (List Nat)) :
    Int × Option unilog_t :=
  match log, format with
  | some _, some _ =>
    match rendered with
    | none => (UNILOG_ERR_INVALID, log)
    | some r => unilog_write_internal log level timestamp (some (r.take 255))
  | _, _ => (UNILOG_ERR_INVALID, log)

/-- Result of `unilog_read`: return value, updated logger, the values stored
through the `level` / `timestamp` output pointers, and the output buffer
contents.  On error paths the outputs keep their prior values. -/
structure ReadResult where
  ret : Int
  log : Option unilog_t
  level : Nat
  timestamp : Nat
  out : List Nat
deriving DecidableEq, Repr

/-- `unilog_read`.  `levelp`/`tsp` model non-nullness of the two output
pointers; `out` is the output buffer (none = null), `level0`/`timestamp0`
and the contents of `out` are the pre-call values of the output locations. -/
def unilog_read (log : Option unilog_t) (levelp tsp : Bool)
    (out : Option (List Nat)) (buffer_size : Nat) (level0 timestamp0 : Nat) :
    ReadResult :=
  match log, out with
  | some l, some outb =>
    if !levelp || !tsp || buffer_size == 0 then
      ⟨UNILOG_ERR_INVALID, some l, level0, timestamp0, outb⟩
    else
      let capacity := l.buffer.capacity
      let mask := capacity - 1
      let read_pos := l.buffer.read_pos
      let write_pos := l.buffer.write_pos
      if read_pos == write_pos then
        ⟨UNILOG_ERR_EMPTY, some l, level0, timestamp0, outb⟩
      else
        let total_size := decodeLE (ringBytes l.buffer.data mask read_pos 4)
        if total_size == 0 then
          ⟨UNILOG_ERR_BUSY, some l, level0, timestamp0, outb⟩
        else if capacity / 2 < total_size then
          ⟨UNILOG_ERR_INVALID, some l, level0, timestamp0, outb⟩
        else
          let data1 := ringWrite l.buffer.data mask read_pos (le32 0)
          let hbytes := ringBytes data1 mask ((read_pos + 4) &&& mask) 8
          let data2 := ringWrite data1 mask ((read_pos + 4) &&& mask)
              (List.replicate 8 0)
          let level := decodeLE (hbytes.take 4)
          let timestamp := decodeLE (hbytes.drop 4)
          let msg_len := (total_size + 2 ^ 32 - 12) % 2 ^ 32
          let copy_len :=
            if msg_len < buffer_size then msg_len else (buffer_size - 1) % 2 ^ 32
          let mbytes := ringBytes data2 mask ((read_pos + 12) &&& mask) copy_len
          let data3 := ringWrite data2 mask ((read_pos + 12) &&& mask)
              (List.replicate copy_len 0)
          let out1 := (writeAt outb 0 mbytes).set copy_len 0
          let advance_by := align_up total_size
          let new_read_pos := (read_pos + advance_by) &&& mask
          let padStart := (read_pos + 12 + copy_len) &&& mask
          let padCount := (new_read_pos + capacity - padStart) % capacity
          let data4 := ringWrite data3 mask padStart (List.replicate padCount 0)
          ⟨(copy_len : Int),
            some ⟨⟨write_pos, new_read_pos, capacity, data4⟩, l.min_level⟩,
            level, timestamp, out1⟩
  | _, _ => ⟨UNILOG_ERR_INVALID, log, level0, timestamp0, out.getD []⟩

/-- `unilog_available`: `(write_pos - read_pos) & mask` (uint32 wrap),
0 on a null handle. -/
def unilog_available (log : Option unilog_t) : Nat :=
  match log with
  | none => 0
  | some l =>
      ((l.buffer.write_pos + 2 ^ 32 - l.buffer.read_pos) % 2 ^ 32) &&&
        (l.buffer.capacity - 1)

/-- `unilog_is_empty`: `write_pos == read_pos`, true on a null handle. -/
def unilog_is_empty (log : Option unilog_t) : Bool :=
  match log with
  | none => true
  | some l => l.buffer.write_pos == l.buffer.read_pos

/-! ## Spec-side abstractions

The following definitions are not code of the repository; they formalize the
spec's abstract view of the ring (§3 "Entry", §8 invariant 1): the queue of
published entries, decoded from the ring exactly as the consumer would. -/

/-- One little-endian `uint32` stored in the ring at position `pos`. -/
def wordAt (data : List Nat) (C pos : Nat) : Nat :=
  decodeLE (ringBytes data (C - 1) pos 4)

/-- Abstract view of the entry stored at `pos` with stored length `L`:
level word, timestamp word, and the `L - 12` payload bytes. -/
def entryAt (data : List Nat) (C pos L : Nat) : Nat × Nat × List Nat :=
  (wordAt data C (pos + 4), wordAt data C (pos + 8),
   ringBytes data (C - 1) (pos + 12) (L - 12))

/-- The ring region starting at `rp` decomposes into published entries whose
stored lengths are `lens`, each satisfying the spec's entry invariants
(`length` word matches, `12 ≤ length ≤ C/2`). -/
def chainOK (data : List Nat) (C : Nat) : Nat → List Nat → Prop
  | _, [] => True
  | rp, L :: rest =>
      wordAt data C rp = L ∧ 12 ≤ L ∧ L ≤ C / 2 ∧
      chainOK data C ((rp + align_up L) % C) rest

/-- The abstract entries of a chain with stored lengths `lens`. -/
def chainEntries (data : List Nat) (C : Nat) :
    Nat → List Nat → List (Nat × Nat × List Nat)
  | _, [] => []
  | rp, L :: rest =>
      entryAt data C rp L :: chainEntries data C ((rp + align_up L) % C) rest

/-- Fuelled decoding of the queued entries, traversing the ring exactly as
the consumer does: read the length word at `rp`, decode the entry, advance
by the aligned length, stop at `wp`. -/
def entriesAux (data : List Nat) (C : Nat) :
    Nat → Nat → Nat → List (Nat × Nat × List Nat)
  | _, _, 0 => []
  | rp, wp, fuel + 1 =>
      if rp = wp then []
      else
        entryAt data C rp (wordAt data C rp) ::
          entriesAux data C ((rp + align_up (wordAt data C rp)) % C) wp fuel

/-- The queue of published entries of a logger state. -/
def ringEntries (l : unilog_t) : List (Nat × Nat × List Nat) :=
  entriesAux l.buffer.data l.buffer.capacity l.buffer.read_pos
    l.buffer.write_pos l.buffer.capacity

/-- Producer/consumer operations for the trace semantics of the
exactly-once-delivery claim. -/
inductive Op where
  | write (level timestamp : Nat) (payload : List Nat)
  | read (out_cap : Nat)
  | setLevel (level : Nat)
deriving DecidableEq, Repr

/-- The abstract entry recorded by a successful write, in the spec's wire
encoding (words reduced mod `2^32`, payload bytes stored as `uint8_t`). -/
def recordedEntry (level timestamp : Nat) (payload : List Nat) :
    Nat × Nat × List Nat :=
  (level % 2 ^ 32, timestamp % 2 ^ 32, payload.map (fun b => b % 256))

/-- The byte image of a published entry as laid out by the producer:
length word, level word, timestamp word, payload bytes (as `uint8_t`),
zero padding to the aligned length. -/
def entryBytes (level timestamp : Nat) (msg : List Nat) : List Nat :=
  le32 (12 + msg.length) ++ (le32 level ++ le32 timestamp ++
    msg.map (fun b => b % 256) ++
    List.replicate (align_up (12 + msg.length) - (12 + msg.length)) 0)

/-- A write operation whose payload length cannot overflow the `uint32`
total-size computation (`size_t` payloads of at least `2^32 - 12` bytes are
physically impossible on the targets the spec addresses). -/
def OpWF : Op → Prop
  | .write _ _ payload => payload.length + 12 < 2 ^ 32
  | _ => True

/-- One trace step: next state, the entry recorded by a successful write (if
any), the entry consumed by a successful read (if any).  Reads go into a
fresh zeroed buffer of the requested size. -/
def stepOp (l : unilog_t) :
    Op → unilog_t × Option (Nat × Nat × List Nat) × Option (Nat × Nat × List Nat)
  | .write level ts payload =>
      let r := unilog_write_raw (some l) level ts (some payload)
      (r.2.getD l,
       if r.1 = UNILOG_OK ∧ l.min_level ≤ level then
         some (recordedEntry level ts payload)
       else none,
       none)
  | .read out_cap =>
      let r := unilog_read (some l) true true
          (some (List.replicate out_cap 0)) out_cap 0 0
      (r.log.getD l, none, if 0 ≤ r.ret then (ringEntries l).head? else none)
  | .setLevel v => ((unilog_set_level (some l) v).getD l, none, none)

/-- Run a trace, collecting the recorded and the consumed entries in order. -/
def runTrace :
    unilog_t → List Op →
      unilog_t × List (Nat × Nat × List Nat) × List (Nat × Nat × List Nat)
  | l, [] => (l, [], [])
  | l, op :: ops =>
      let s := stepOp l op
      let rest := runTrace s.1 ops
      (rest.1, s.2.1.toList ++ rest.2.1, s.2.2.toList ++ rest.2.2)

/-- Well-formedness of a ring state: capacity `2^k` fits `uint32`, the
backing list has that length, positions are reduced, bytes are byte-values,
and the used region decomposes into published entries whose aligned lengths
sum to the used byte count. -/
def WFdata (k : Nat) (data : List Nat) (rp wp : Nat) (lens : List Nat) : Prop :=
  k ≤ 32 ∧ data.length = 2 ^ k ∧ rp < 2 ^ k ∧ wp < 2 ^ k ∧
  (∀ b ∈ data, b < 256) ∧
  chainOK data (2 ^ k) rp lens ∧
  (lens.map align_up).sum = (wp + 2 ^ k - rp) % 2 ^ k

/-- A logger state is well formed if its ring is. -/
def WF (k : Nat) (l : unilog_t) : Prop :=
  l.buffer.capacity = 2 ^ k ∧
  ∃ lens, WFdata k l.buffer.data l.buffer.read_pos l.buffer.write_pos lens

/-! ## Arithmetic toolkit -/

theorem and_mask_eq_mod (k x : Nat) : x &&& (2 ^ k - 1) = x % 2 ^ k :=
  Nat.and_pow_two_sub_one_eq_mod x k

theorem is_power_of_2_two_pow (k : Nat) : is_power_of_2 (2 ^ k) = true := by
  simp [is_power_of_2, and_mask_eq_mod, Nat.two_pow_pos]

theorem and_mask_top (x : Nat) : x &&& (2 ^ 32 - 4) = x % 2 ^ 32 / 4 * 4 := by
  have h1 : (2 : Nat) ^ 32 - 4 = (2 ^ 30 - 1) <<< 2 := by
    simp [Nat.shiftLeft_eq]
  have h2 : x % 2 ^ 32 / 4 * 4 = ((x % 2 ^ 32) >>> 2) <<< 2 := by
    simp [Nat.shiftLeft_eq, Nat.shiftRight_eq_div_pow]
  rw [h1, h2]
  apply Nat.eq_of_testBit_eq
  intro i
  simp only [Nat.testBit_and, Nat.testBit_shiftLeft, Nat.testBit_shiftRight,
    Nat.testBit_mod_two_pow, Nat.testBit_two_pow_sub_one]
  by_cases h : 2 ≤ i
  · have hi : 2 + (i - 2) = i := by omega
    rw [hi]
    by_cases h32 : i < 32
    · simp [h, h32, (by omega : i - 2 < 30)]
    · have e1 : decide (i - 2 < 30) = false := by
        simp only [decide_eq_false_iff_not]; omega
      have e2 : decide (i < 32) = false := by
        simp only [decide_eq_false_iff_not]; omega
      simp [e1, e2]
  · simp [h]

theorem align_up_eq (s : Nat) (h : s + 3 < 2 ^ 32) :
    align_up s = (s + 3) / 4 * 4 := by
  unfold align_up
  rw [and_mask_top, Nat.mod_mod_of_dvd _ dvd_rfl, Nat.mod_eq_of_lt h]

theorem align_up_spec (s : Nat) (h : s + 3 < 2 ^ 32) :
    s ≤ align_up s ∧ align_up s ≤ s + 3 ∧ align_up s % 4 = 0 := by
  rw [align_up_eq s h]
  omega

theorem wrap_sub_mod (C a b : Nat) (hC : C ∣ 2 ^ 32) (hb : b ≤ C) :
    (a + 2 ^ 32 - b) % 2 ^ 32 % C = (a + C - b) % C := by
  have hC32 : C ≤ 2 ^ 32 := Nat.le_of_dvd (by norm_num) hC
  obtain ⟨m, hm⟩ := Nat.dvd_sub' hC (dvd_refl C)
  have h1 : a + 2 ^ 32 - b = (a + C - b) + C * m := by omega
  rw [Nat.mod_mod_of_dvd _ hC, h1, Nat.add_mul_mod_self_left]

theorem used_eq (k wp rp : Nat) (hk : k ≤ 32) (hrp : rp < 2 ^ k) :
    ((wp + 2 ^ 32 - rp) % 2 ^ 32) &&& (2 ^ k - 1) = (wp + 2 ^ k - rp) % 2 ^ k := by
  rw [and_mask_eq_mod]
  exact wrap_sub_mod (2 ^ k) wp rp (pow_dvd_pow 2 hk) (le_of_lt hrp)

theorem circ_add (C b d : Nat) (hC : 0 < C) :
    ((b + d) % C + C - b % C) % C = d % C := by
  have hdm := Nat.div_add_mod b C
  have hblt : b % C < C := Nat.mod_lt b hC
  have h1 : (b + d) % C + C - b % C = (b + d) % C + (C - b % C) := by omega
  rw [h1, Nat.mod_add_mod]
  have h2 : b + d + (C - b % C) = d + C * (b / C) + C * 1 := by omega
  rw [h2, Nat.add_mul_mod_self_left, Nat.add_mul_mod_self_left]

theorem circ_recover (C b a : Nat) (hC : 0 < C) (ha : a < C) :
    (b + (a + C - b % C)) % C = a := by
  have hdm := Nat.div_add_mod b C
  have hblt : b % C < C := Nat.mod_lt b hC
  have h2 : b + (a + C - b % C) = a + C * (b / C) + C * 1 := by omega
  rw [h2, Nat.add_mul_mod_self_left, Nat.add_mul_mod_self_left,
    Nat.mod_eq_of_lt ha]

theorem pred_mod (C a : Nat) (hC : 0 < C) (ha : 1 ≤ a) :
    (a - 1) % C = if a % C = 0 then C - 1 else a % C - 1 := by
  have hdm := Nat.div_add_mod a C
  have hlt : a % C < C := Nat.mod_lt a hC
  by_cases h : a % C = 0
  · rw [if_pos h]
    have hq : 0 < a / C := by
      rcases Nat.eq_zero_or_pos (a / C) with h0 | h1
      · rw [h0, Nat.mul_zero] at hdm; omega
      · exact h1
    obtain ⟨q, hqe⟩ : ∃ q, a / C = q + 1 :=
      ⟨a / C - 1, (Nat.succ_pred_eq_of_pos hq).symm⟩
    rw [hqe] at hdm
    have h2 : a - 1 = (C - 1) + C * q := by
      have : C * (q + 1) = C * q + C := by ring
      omega
    rw [h2, Nat.add_mul_mod_self_left, Nat.mod_eq_of_lt (by omega)]
  · rw [if_neg h]
    have h2 : a - 1 = (a % C - 1) + C * (a / C) := by omega
    rw [h2, Nat.add_mul_mod_self_left, Nat.mod_eq_of_lt (by omega)]

/-! ## List and ring toolkit -/

theorem mod_eq_zero_iff_between (C a : Nat) (hC : 0 < C) (h1 : 1 ≤ a)
    (h2 : a < 2 * C) : a % C = 0 ↔ a = C := by
  rcases Nat.lt_trichotomy a C with h | h | h
  · rw [Nat.mod_eq_of_lt h]; omega
  · subst h; simp
  · rw [Nat.mod_eq_sub_mod (le_of_lt h), Nat.mod_eq_of_lt (by omega)]; omega

theorem getD_set_self (l : List Nat) (i b : Nat) (h : i < l.length) :
    (l.set i b).getD i 0 = b := by
  simp [List.getD_eq_getElem?_getD, List.getElem?_set_self h]

theorem getD_set_ne (l : List Nat) (i j b : Nat) (h : i ≠ j) :
    (l.set i b).getD j 0 = l.getD j 0 := by
  simp [List.getD_eq_getElem?_getD, List.getElem?_set_ne h]

theorem ringWrite_length (bytes : List Nat) :
    ∀ (data : List Nat) (mask pos : Nat),
      (ringWrite data mask pos bytes).length = data.length := by
  induction bytes with
  | nil => intro data mask pos; rfl
  | cons b rest ih =>
      intro data mask pos
      simp only [ringWrite]
      rw [ih, List.length_set]

theorem ringWrite_getD (k : Nat) (bytes : List Nat) :
    ∀ (data : List Nat) (pos p : Nat), data.length = 2 ^ k →
      bytes.length ≤ 2 ^ k → p < 2 ^ k →
      (ringWrite data (2 ^ k - 1) pos bytes).getD p 0 =
        if (p + 2 ^ k - pos % 2 ^ k) % 2 ^ k < bytes.length then
          bytes.getD ((p + 2 ^ k - pos % 2 ^ k) % 2 ^ k) 0
        else data.getD p 0 := by
  induction bytes with
  | nil =>
      intro data pos p _ _ _
      simp [ringWrite]
  | cons b rest ih =>
      intro data pos p hlen hble hp
      have hC : 0 < 2 ^ k := Nat.two_pow_pos k
      have hr : pos % 2 ^ k < 2 ^ k := Nat.mod_lt pos hC
      have hrest : rest.length + 1 ≤ 2 ^ k := by
        simpa using hble
      have ha1 : 1 ≤ p + 2 ^ k - pos % 2 ^ k := by omega
      have ha2 : p + 2 ^ k - pos % 2 ^ k < 2 * 2 ^ k := by omega
      have hmask : pos &&& (2 ^ k - 1) = pos % 2 ^ k := and_mask_eq_mod k pos
      have hmask1 : (pos + 1) &&& (2 ^ k - 1) = (pos + 1) % 2 ^ k :=
        and_mask_eq_mod k (pos + 1)
      have hiff := mod_eq_zero_iff_between (2 ^ k)
        (p + 2 ^ k - pos % 2 ^ k) hC ha1 ha2
      have key : (p + 2 ^ k - (pos + 1) % 2 ^ k % 2 ^ k) % 2 ^ k =
          if (p + 2 ^ k - pos % 2 ^ k) % 2 ^ k = 0 then 2 ^ k - 1
          else (p + 2 ^ k - pos % 2 ^ k) % 2 ^ k - 1 := by
        rw [Nat.mod_mod_of_dvd _ dvd_rfl]
        rcases Nat.lt_or_ge (pos % 2 ^ k + 1) (2 ^ k) with hc | hc
        · have e1 : (pos + 1) % 2 ^ k = pos % 2 ^ k + 1 := by
            rw [← Nat.mod_add_mod, Nat.mod_eq_of_lt hc]
          rw [e1]
          have e2 : p + 2 ^ k - (pos % 2 ^ k + 1) =
              (p + 2 ^ k - pos % 2 ^ k) - 1 := by omega
          rw [e2, pred_mod _ _ hC ha1]
        · have hc' : pos % 2 ^ k + 1 = 2 ^ k := by omega
          have e1 : (pos + 1) % 2 ^ k = 0 := by
            rw [← Nat.mod_add_mod, hc', Nat.mod_self]
          rw [e1, Nat.sub_zero, Nat.add_mod_right, Nat.mod_eq_of_lt hp]
          have e3 : p + 2 ^ k - pos % 2 ^ k = p + 1 := by omega
          rw [e3]
          rcases Nat.lt_or_ge (p + 1) (2 ^ k) with hd | hd
          · rw [Nat.mod_eq_of_lt hd, if_neg (by omega)]
            omega
          · have hd' : p + 1 = 2 ^ k := by omega
            rw [hd', Nat.mod_self, if_pos rfl]
            omega
      simp only [ringWrite]
      rw [ih (data.set (pos &&& (2 ^ k - 1)) b) ((pos + 1) &&& (2 ^ k - 1)) p
          (by rw [List.length_set]; exact hlen)
          (by omega) hp]
      rw [hmask1, hmask, key]
      by_cases h0 : (p + 2 ^ k - pos % 2 ^ k) % 2 ^ k = 0
      · have hpe : p = pos % 2 ^ k := by
          have := hiff.mp h0; omega
        rw [if_pos h0, if_neg (by omega),
          if_pos (by simp only [List.length_cons]; omega)]
        rw [h0, ← hpe, getD_set_self data p b (by omega)]
        rfl
      · have hpne : pos % 2 ^ k ≠ p := by
          intro heq
          exact h0 (hiff.mpr (by omega))
        rw [if_neg h0, getD_set_ne data (pos % 2 ^ k) p b hpne]
        have ho1 : 1 ≤ (p + 2 ^ k - pos % 2 ^ k) % 2 ^ k := by omega
        obtain ⟨m, hm⟩ : ∃ m, (p + 2 ^ k - pos % 2 ^ k) % 2 ^ k = m + 1 :=
          ⟨_, (Nat.succ_pred_eq_of_pos ho1).symm⟩
        rw [hm]
        simp only [Nat.add_sub_cancel, List.length_cons, List.getD_cons_succ]
        by_cases hml : m < rest.length
        · rw [if_pos hml, if_pos (by omega)]
        · rw [if_neg hml, if_neg (by omega)]

theorem ringWrite_getD_lt (k : Nat) (data : List Nat) (pos i : Nat)
    (bytes : List Nat) (hlen : data.length = 2 ^ k)
    (hble : bytes.length ≤ 2 ^ k) (hi : i < bytes.length) :
    (ringWrite data (2 ^ k - 1) pos bytes).getD ((pos + i) % 2 ^ k) 0 =
      bytes.getD i 0 := by
  have hC : 0 < 2 ^ k := Nat.two_pow_pos k
  have hilt : i < 2 ^ k := lt_of_lt_of_le hi hble
  rw [ringWrite_getD k bytes data pos ((pos + i) % 2 ^ k) hlen hble
    (Nat.mod_lt _ hC)]
  rw [circ_add _ _ _ hC, Nat.mod_eq_of_lt hilt, if_pos hi]

theorem ringWrite_getD_ge (k : Nat) (data : List Nat) (pos q : Nat)
    (bytes : List Nat) (hlen : data.length = 2 ^ k)
    (hble : bytes.length ≤ 2 ^ k) (hq : q < 2 ^ k)
    (hoff : bytes.length ≤ (q + 2 ^ k - pos % 2 ^ k) % 2 ^ k) :
    (ringWrite data (2 ^ k - 1) pos bytes).getD q 0 = data.getD q 0 := by
  rw [ringWrite_getD k bytes data pos q hlen hble hq, if_neg (by omega)]

theorem ringBytes_eq_map (k : Nat) (data : List Nat) (n : Nat) :
    ∀ pos, ringBytes data (2 ^ k - 1) pos n =
      (List.range n).map (fun i => data.getD ((pos + i) % 2 ^ k) 0) := by
  induction n with
  | zero => intro pos; rfl
  | succ m ih =>
      intro pos
      rw [List.range_succ_eq_map]
      simp only [ringBytes, List.map_cons, List.map_map]
      rw [ih ((pos + 1) &&& (2 ^ k - 1))]
      congr 1
      · simp [ringGet, and_mask_eq_mod]
      · apply List.map_congr_left
        intro i _
        simp only [Function.comp_apply]
        rw [and_mask_eq_mod, Nat.mod_add_mod,
          show pos + 1 + i = pos + i.succ by omega]

theorem decodeLE_le32 (x : Nat) : decodeLE (le32 x) = x % 2 ^ 32 := by
  simp only [le32, decodeLE]
  omega

theorem le32_lt (x : Nat) : ∀ b ∈ le32 x, b < 256 := by
  intro b hb
  simp only [le32, List.mem_cons, List.not_mem_nil, or_false] at hb
  rcases hb with h | h | h | h <;> subst h <;> omega

theorem ringBytes_length (data : List Nat) (mask : Nat) :
    ∀ n pos, (ringBytes data mask pos n).length = n := by
  intro n
  induction n with
  | zero => intro pos; rfl
  | succ m ih => intro pos; simp [ringBytes, ih]

theorem ringWrite_mod_pos (k : Nat) (bs : List Nat) :
    ∀ (data : List Nat) (pos : Nat),
      ringWrite data (2 ^ k - 1) (pos % 2 ^ k) bs =
        ringWrite data (2 ^ k - 1) pos bs := by
  induction bs with
  | nil => intro data pos; rfl
  | cons b rest ih =>
      intro data pos
      simp only [ringWrite, and_mask_eq_mod, Nat.mod_mod_of_dvd _ dvd_rfl,
        Nat.mod_add_mod]

theorem ringWrite_append (k : Nat) (bs1 : List Nat) :
    ∀ (data : List Nat) (pos : Nat) (bs2 : List Nat),
      ringWrite data (2 ^ k - 1) pos (bs1 ++ bs2) =
        ringWrite (ringWrite data (2 ^ k - 1) pos bs1) (2 ^ k - 1)
          ((pos + bs1.length) &&& (2 ^ k - 1)) bs2 := by
  induction bs1 with
  | nil =>
      intro data pos bs2
      simp only [List.nil_append, ringWrite, List.length_nil, Nat.add_zero,
        and_mask_eq_mod]
      exact (ringWrite_mod_pos k bs2 data pos).symm
  | cons b rest ih =>
      intro data pos bs2
      simp only [List.cons_append, ringWrite, List.length_cons, List.append_eq]
      rw [ih]
      congr 1
      rw [and_mask_eq_mod, and_mask_eq_mod, and_mask_eq_mod, Nat.mod_add_mod]
      congr 1
      omega

theorem ringWrite_bytes_lt (bs : List Nat) :
    ∀ (data : List Nat) (mask pos : Nat),
      (∀ b ∈ data, b < 256) → (∀ b ∈ bs, b < 256) →
      ∀ b ∈ ringWrite data mask pos bs, b < 256 := by
  induction bs with
  | nil => intro data mask pos hd _ b hb; exact hd b hb
  | cons x rest ih =>
      intro data mask pos hd hbs b hb
      refine ih _ _ _ ?_ ?_ b hb
      · intro c hc
        rcases List.mem_or_eq_of_mem_set hc with h | h
        · exact hd c h
        · rw [h]; exact hbs x (by simp)
      · intro c hc; exact hbs c (by simp [hc])

theorem writeAt_cons_succ (bytes : List Nat) :
    ∀ (o : Nat) (os : List Nat) (i : Nat),
      writeAt (o :: os) (i + 1) bytes = o :: writeAt os i bytes := by
  induction bytes with
  | nil => intro o os i; rfl
  | cons b rest ih =>
      intro o os i
      simp only [writeAt, List.set_cons_succ]
      exact ih o (os.set i b) (i + 1)

theorem writeAt_zero (bytes : List Nat) :
    ∀ (out : List Nat), bytes.length ≤ out.length →
      writeAt out 0 bytes = bytes ++ out.drop bytes.length := by
  induction bytes with
  | nil => intro out h; simp [writeAt]
  | cons b rest ih =>
      intro out h
      cases out with
      | nil => simp at h
      | cons o os =>
          simp only [writeAt, List.set_cons_zero]
          rw [writeAt_cons_succ rest b os 0, ih os
            (by simp only [List.length_cons] at h; omega)]
          simp only [List.length_cons, List.cons_append, List.drop_succ_cons]

/-! ## Claim theorems: error handling and frame effects -/

/-- C10: null-handle totality of the accessors: `unilog_get_level` returns
`NONE`, `unilog_available` returns 0, `unilog_is_empty` returns true, and
`unilog_set_level` does nothing, when the logger pointer is null. -/
theorem C10_null_accessors_total :
    unilog_get_level none = UNILOG_LEVEL_NONE ∧
    unilog_available none = 0 ∧
    unilog_is_empty none = true ∧
    ∀ level, unilog_set_level none level = none :=
  ⟨rfl, rfl, rfl, fun _ => rfl⟩

/-- C5: a write whose level is strictly below the current threshold returns
OK and leaves the logger (ring bytes, `write_pos`, `read_pos`) unchanged —
for the raw, the c-string and the formatted writer alike.  The threshold
test precedes the size check, so no size restriction is needed here. -/
theorem C5_silent_drop (l : unilog_t) (level timestamp : Nat)
    (payload rendered : List Nat) (h : level < l.min_level) :
    unilog_write_raw (some l) level timestamp (some payload) =
      (UNILOG_OK, some l) ∧
    unilog_write (some l) level timestamp (some payload) =
      (UNILOG_OK, some l) ∧
    unilog_format (some l) level timestamp (some ()) (some rendered) =
      (UNILOG_OK, some l) := by
  refine ⟨?_, ?_, ?_⟩ <;>
    simp [unilog_write_raw, unilog_write, unilog_format,
      unilog_write_internal, h]

/-- Witness for C5: threshold WARN, level INFO, 40-byte payload in a
capacity-16 ring (total size far above `C/2`): still a silent OK drop. -/
theorem C5_silent_drop_witness :
    UNILOG_LEVEL_INFO <
      (unilog_t.mk ⟨0, 0, 16, List.replicate 16 0⟩ UNILOG_LEVEL_WARN).min_level ∧
    unilog_write_raw
      (some ⟨⟨0, 0, 16, List.replicate 16 0⟩, UNILOG_LEVEL_WARN⟩)
      UNILOG_LEVEL_INFO 5 (some (List.replicate 40 7)) =
      (UNILOG_OK, some ⟨⟨0, 0, 16, List.replicate 16 0⟩, UNILOG_LEVEL_WARN⟩) :=
  ⟨by decide,
   (C5_silent_drop ⟨⟨0, 0, 16, List.replicate 16 0⟩, UNILOG_LEVEL_WARN⟩
      UNILOG_LEVEL_INFO 5 (List.replicate 40 7) [] (by decide)).1⟩

/-- C6: with a non-null handle and payload and the threshold passed, a
payload whose total size `12 + len` exceeds `C/2` is rejected with INVALID
and the logger is unchanged. -/
theorem C6_oversize_invalid (l : unilog_t) (level timestamp : Nat)
    (msg : List Nat) (hlvl : l.min_level ≤ level)
    (hsz : l.buffer.capacity / 2 < 12 + msg.length)
    (hnof : 12 + msg.length < 2 ^ 32) :
    unilog_write_internal (some l) level timestamp (some msg) =
      (UNILOG_ERR_INVALID, some l) := by
  simp [unilog_write_internal, Nat.not_lt.mpr hlvl, Nat.mod_eq_of_lt hnof, hsz]
  intro hle
  exact absurd hle (by omega)

/-- Witness for C6: `C = 1024`, 600-byte payload, rejected since
`612 > 512`. -/
theorem C6_oversize_invalid_witness :
    ((unilog_t.mk ⟨0, 0, 1024, List.replicate 1024 0⟩ 0).min_level ≤ 4) ∧
    ((1024 : Nat) / 2 < 12 + (List.replicate 600 65).length) ∧
    (12 + (List.replicate 600 65).length < 2 ^ 32) ∧
    unilog_write_internal
      (some ⟨⟨0, 0, 1024, List.replicate 1024 0⟩, 0⟩) 4 7
      (some (List.replicate 600 65)) =
      (UNILOG_ERR_INVALID, some ⟨⟨0, 0, 1024, List.replicate 1024 0⟩, 0⟩) :=
  ⟨by decide, by decide, by decide,
   C6_oversize_invalid ⟨⟨0, 0, 1024, List.replicate 1024 0⟩, 0⟩ 4 7
     (List.replicate 600 65) (by decide) (by decide) (by decide)⟩

/-- C4 counterexample: `unilog_init` accepts capacity 4 — a power of two
smaller than 16 — and returns OK, not INVALID as the claim states. -/
theorem C4_counterexample :
    (unilog_init true true 4).1 = UNILOG_OK ∧
    UNILOG_OK ≠ UNILOG_ERR_INVALID := by
  constructor
  · rfl
  · decide

/-- C4 amended: `unilog_init` returns INVALID exactly when the handle is
null, the backing pointer is null, or the capacity is not a power of two
(`is_power_of_2`); the code imposes no minimum capacity of 16. -/
theorem C4_init_invalid_iff (lognn bufnn : Bool) (capacity : Nat) :
    (unilog_init lognn bufnn capacity).1 = UNILOG_ERR_INVALID ↔
      (lognn = false ∨ bufnn = false ∨ is_power_of_2 capacity = false) := by
  cases lognn <;> cases bufnn <;> rcases h : is_power_of_2 capacity <;>
    simp [unilog_init, h, UNILOG_OK, UNILOG_ERR_INVALID]

/-- C3 counterexample: a ring state whose stored length word is 4 — nonzero
and below 12 — is not rejected: `unilog_read` proceeds (underflowing
`msg_len`) and returns 3 copied bytes instead of INVALID. -/
theorem C3_counterexample :
    (unilog_read (some ⟨⟨4, 0, 16, 4 :: List.replicate 15 0⟩, 0⟩) true true
      (some [9, 9, 9, 9]) 4 0 0).ret = 3 ∧
    (3 : Int) ≠ UNILOG_ERR_INVALID := by
  constructor
  · rfl
  · decide

/-- C3 amended: with the ring non-empty and a nonzero stored length word,
`unilog_read` returns INVALID — extracting nothing, advancing nothing, and
leaving the outputs untouched — when the stored length exceeds `C/2`.  The
spec's second validation, `length < 12`, is absent from the code. -/
theorem C3_oversized_length_invalid (l : unilog_t) (outb : List Nat)
    (bs level0 ts0 : Nat) (hbs : bs ≠ 0)
    (hne : l.buffer.read_pos ≠ l.buffer.write_pos)
    (hL : l.buffer.capacity / 2 <
      wordAt l.buffer.data l.buffer.capacity l.buffer.read_pos) :
    unilog_read (some l) true true (some outb) bs level0 ts0 =
      ⟨UNILOG_ERR_INVALID, some l, level0, ts0, outb⟩ := by
  have hnz : wordAt l.buffer.data l.buffer.capacity l.buffer.read_pos ≠ 0 := by
    omega
  simp only [wordAt] at hL hnz
  simp [unilog_read, hbs, hne, hL, hnz]

/-- Witness for the amended C3: capacity 16, stored length word 9 > 8. -/
theorem C3_oversized_length_invalid_witness :
    ((2 : Nat) ≠ 0) ∧
    ((unilog_t.mk ⟨4, 0, 16, 9 :: List.replicate 15 0⟩ 0).buffer.read_pos ≠
      (unilog_t.mk ⟨4, 0, 16, 9 :: List.replicate 15 0⟩ 0).buffer.write_pos) ∧
    ((16 : Nat) / 2 < wordAt (9 :: List.replicate 15 0) 16 0) ∧
    unilog_read (some ⟨⟨4, 0, 16, 9 :: List.replicate 15 0⟩, 0⟩) true true
      (some [7, 7]) 2 1 3 =
      ⟨UNILOG_ERR_INVALID, some ⟨⟨4, 0, 16, 9 :: List.replicate 15 0⟩, 0⟩,
        1, 3, [7, 7]⟩ :=
  ⟨by decide, by decide, by decide,
   C3_oversized_length_invalid ⟨⟨4, 0, 16, 9 :: List.replicate 15 0⟩, 0⟩
     [7, 7] 2 1 3 (by decide) (by decide) (by decide)⟩

/-- C7: read failure taxonomy.  INVALID when the handle, an output pointer
or the buffer is null or `out_cap = 0`; EMPTY when `read_pos == write_pos`
(leaving outputs and ring unchanged — the full result record equality states
this); BUSY when the ring is non-empty but the length word at `read_pos` is
zero.  In every case the logger state and the output locations are
untouched. -/
theorem C7_read_failure_taxonomy (l : unilog_t) (levelp tsp : Bool)
    (out : Option (List Nat)) (outb : List Nat) (bs level0 ts0 : Nat) :
    (unilog_read none levelp tsp out bs level0 ts0 =
      ⟨UNILOG_ERR_INVALID, none, level0, ts0, out.getD []⟩) ∧
    (unilog_read (some l) false tsp (some outb) bs level0 ts0 =
      ⟨UNILOG_ERR_INVALID, some l, level0, ts0, outb⟩) ∧
    (unilog_read (some l) levelp false (some outb) bs level0 ts0 =
      ⟨UNILOG_ERR_INVALID, some l, level0, ts0, outb⟩) ∧
    (unilog_read (some l) levelp tsp none bs level0 ts0 =
      ⟨UNILOG_ERR_INVALID, some l, level0, ts0, []⟩) ∧
    (unilog_read (some l) levelp tsp (some outb) 0 level0 ts0 =
      ⟨UNILOG_ERR_INVALID, some l, level0, ts0, outb⟩) ∧
    (bs ≠ 0 → l.buffer.read_pos = l.buffer.write_pos →
      unilog_read (some l) true true (some outb) bs level0 ts0 =
        ⟨UNILOG_ERR_EMPTY, some l, level0, ts0, outb⟩) ∧
    (bs ≠ 0 → l.buffer.read_pos ≠ l.buffer.write_pos →
      wordAt l.buffer.data l.buffer.capacity l.buffer.read_pos = 0 →
      unilog_read (some l) true true (some outb) bs level0 ts0 =
        ⟨UNILOG_ERR_BUSY, some l, level0, ts0, outb⟩) := by
  refine ⟨rfl, ?_, ?_, rfl, ?_, ?_, ?_⟩
  · cases levelp <;> cases tsp <;> rfl
  · cases levelp <;> rfl
  · cases levelp <;> cases tsp <;> rfl
  · intro h1 h2
    simp [unilog_read, h1, h2]
  · intro h1 h2 h3
    simp only [wordAt] at h3
    simp [unilog_read, h1, h2, h3]

/-- Witness for C7, exercising the EMPTY and BUSY implications at concrete
states. -/
theorem C7_read_failure_taxonomy_witness :
    (unilog_read (some ⟨⟨0, 0, 16, List.replicate 16 0⟩, 0⟩) true true
      (some [7, 7]) 2 1 3 =
      ⟨UNILOG_ERR_EMPTY, some ⟨⟨0, 0, 16, List.replicate 16 0⟩, 0⟩,
        1, 3, [7, 7]⟩) ∧
    (unilog_read (some ⟨⟨4, 0, 16, List.replicate 16 0⟩, 0⟩) true true
      (some [7, 7]) 2 1 3 =
      ⟨UNILOG_ERR_BUSY, some ⟨⟨4, 0, 16, List.replicate 16 0⟩, 0⟩,
        1, 3, [7, 7]⟩) :=
  ⟨(C7_read_failure_taxonomy ⟨⟨0, 0, 16, List.replicate 16 0⟩, 0⟩ true true
      (some [7, 7]) [7, 7] 2 1 3).2.2.2.2.2.1 (by decide) (by decide),
   (C7_read_failure_taxonomy ⟨⟨4, 0, 16, List.replicate 16 0⟩, 0⟩ true true
      (some [7, 7]) [7, 7] 2 1 3).2.2.2.2.2.2 (by decide) (by decide)
      (by decide)⟩

theorem getD_append_left_nat (l l' : List Nat) (n : Nat) (h : n < l.length) :
    (l ++ l').getD n 0 = l.getD n 0 := by
  simp [List.getD_eq_getElem?_getD, List.getElem?_append, h]

theorem getD_append_right_nat (l l' : List Nat) (n : Nat) (h : l.length ≤ n) :
    (l ++ l').getD n 0 = l'.getD (n - l.length) 0 := by
  simp [List.getD_eq_getElem?_getD, List.getElem?_append, Nat.not_lt.mpr h]

theorem map_range_getD_eq_take_drop (bytes : List Nat) (del n : Nat)
    (h : del + n ≤ bytes.length) :
    (List.range n).map (fun i => bytes.getD (del + i) 0) =
      (bytes.drop del).take n := by
  apply List.ext_getElem
  · simp only [List.length_map, List.length_range, List.length_take,
      List.length_drop]
    omega
  · intro i h1 h2
    simp only [List.length_map, List.length_range] at h1
    simp only [List.getElem_map, List.getElem_range, List.getElem_take,
      List.getElem_drop]
    have hlt : del + i < bytes.length := by omega
    rw [List.getD_eq_getElem?_getD, List.getElem?_eq_getElem hlt]
    rfl

theorem ringBytes_mask_pos (k : Nat) (data : List Nat) (n pos : Nat) :
    ringBytes data (2 ^ k - 1) (pos &&& (2 ^ k - 1)) n =
      ringBytes data (2 ^ k - 1) pos n := by
  rw [ringBytes_eq_map, ringBytes_eq_map, and_mask_eq_mod]
  apply List.map_congr_left
  intro i _
  rw [Nat.mod_add_mod]

theorem ringBytes_after_ringWrite_slice (k : Nat) (data bytes : List Nat)
    (pos del n : Nat) (hlen : data.length = 2 ^ k)
    (hble : bytes.length ≤ 2 ^ k) (h : del + n ≤ bytes.length) :
    ringBytes (ringWrite data (2 ^ k - 1) pos bytes) (2 ^ k - 1) (pos + del) n =
      (bytes.drop del).take n := by
  rw [ringBytes_eq_map, ← map_range_getD_eq_take_drop bytes del n h]
  apply List.map_congr_left
  intro i hi
  have hi' := List.mem_range.mp hi
  rw [show pos + del + i = pos + (del + i) by omega]
  exact ringWrite_getD_lt k data pos (del + i) bytes hlen hble (by omega)

theorem ringBytes_after_ringWrite_ge (k : Nat) (data bytes : List Nat)
    (pos del n : Nat) (hlen : data.length = 2 ^ k)
    (hble : bytes.length ≤ 2 ^ k)
    (h : ∀ i, i < n → bytes.length ≤ (del + i) % 2 ^ k) :
    ringBytes (ringWrite data (2 ^ k - 1) pos bytes) (2 ^ k - 1) (pos + del) n =
      ringBytes data (2 ^ k - 1) (pos + del) n := by
  have hC : 0 < 2 ^ k := Nat.two_pow_pos k
  rw [ringBytes_eq_map, ringBytes_eq_map]
  apply List.map_congr_left
  intro i hi
  have hi' := List.mem_range.mp hi
  rw [show pos + del + i = pos + (del + i) by omega]
  apply ringWrite_getD_ge k data pos _ bytes hlen hble (Nat.mod_lt _ hC)
  rw [circ_add _ _ _ hC]
  exact h i hi'

theorem write_data_eq (k : Nat) (data : List Nat) (wp : Nat)
    (word body : List Nat) (hlen : data.length = 2 ^ k)
    (hword : word.length = 4) (hsz : 4 + body.length ≤ 2 ^ k) :
    ringWrite (ringWrite data (2 ^ k - 1) ((wp + 4) &&& (2 ^ k - 1)) body)
        (2 ^ k - 1) wp word =
      ringWrite data (2 ^ k - 1) wp (word ++ body) := by
  have hC : 0 < 2 ^ k := Nat.two_pow_pos k
  have hinlen :
      (ringWrite data (2 ^ k - 1) ((wp + 4) &&& (2 ^ k - 1)) body).length =
        2 ^ k := by
    rw [ringWrite_length]; exact hlen
  apply List.ext_getElem
  · rw [ringWrite_length, ringWrite_length, ringWrite_length]
  · intro p h1 h2
    have hp : p < 2 ^ k := by
      rw [ringWrite_length, hinlen] at h1; exact h1
    rw [show (ringWrite (ringWrite data (2 ^ k - 1)
        ((wp + 4) &&& (2 ^ k - 1)) body) (2 ^ k - 1) wp word)[p] =
      (ringWrite (ringWrite data (2 ^ k - 1) ((wp + 4) &&& (2 ^ k - 1)) body)
        (2 ^ k - 1) wp word).getD p 0 from by
        rw [List.getD_eq_getElem?_getD, List.getElem?_eq_getElem h1]
        rfl]
    rw [show (ringWrite data (2 ^ k - 1) wp (word ++ body))[p] =
      (ringWrite data (2 ^ k - 1) wp (word ++ body)).getD p 0 from by
        rw [List.getD_eq_getElem?_getD, List.getElem?_eq_getElem h2]
        rfl]
    rw [ringWrite_getD k word _ wp p hinlen (by omega) hp]
    rw [ringWrite_getD k (word ++ body) data wp p hlen
      (by rw [List.length_append, hword]; omega) hp]
    rw [ringWrite_getD k body data ((wp + 4) &&& (2 ^ k - 1)) p hlen
      (by omega) hp]
    have hmask : ((wp + 4) &&& (2 ^ k - 1)) % 2 ^ k = (wp + 4) % 2 ^ k := by
      rw [and_mask_eq_mod, Nat.mod_mod_of_dvd _ dvd_rfl]
    rw [hmask]
    set o := (p + 2 ^ k - wp % 2 ^ k) % 2 ^ k with ho
    have holt : o < 2 ^ k := by rw [ho]; exact Nat.mod_lt _ hC
    have hrec : (wp + o) % 2 ^ k = p := by
      rw [ho, Nat.add_mod wp, Nat.mod_mod_of_dvd _ dvd_rfl, ← Nat.add_mod]
      exact circ_recover _ _ _ hC hp
    have ho2 : (p + 2 ^ k - (wp + 4) % 2 ^ k) % 2 ^ k =
        (o + 2 ^ k - 4) % 2 ^ k := by
      have hp2 : p = ((wp + 4) + (o + 2 ^ k - 4)) % 2 ^ k := by
        rw [show (wp + 4) + (o + 2 ^ k - 4) = wp + o + 2 ^ k by omega,
          Nat.add_mod_right, hrec]
      calc (p + 2 ^ k - (wp + 4) % 2 ^ k) % 2 ^ k
          = (((wp + 4) + (o + 2 ^ k - 4)) % 2 ^ k + 2 ^ k -
              (wp + 4) % 2 ^ k) % 2 ^ k := by rw [← hp2]
        _ = (o + 2 ^ k - 4) % 2 ^ k := circ_add _ _ _ hC
    rw [ho2]
    by_cases h4 : o < 4
    · rw [if_pos (show o < word.length from by rw [hword]; omega),
        if_pos (show o < (word ++ body).length from by
          rw [List.length_append, hword]; omega),
        getD_append_left_nat word body o (by rw [hword]; omega)]
    · have ho2v : (o + 2 ^ k - 4) % 2 ^ k = o - 4 := by
        rw [show o + 2 ^ k - 4 = (o - 4) + 2 ^ k by omega, Nat.add_mod_right,
          Nat.mod_eq_of_lt (by omega)]
      rw [if_neg (show ¬ o < word.length from by rw [hword]; omega), ho2v]
      by_cases hb : o - 4 < body.length
      · rw [if_pos hb,
          if_pos (show o < (word ++ body).length from by
            rw [List.length_append, hword]; omega),
          getD_append_right_nat word body o (by rw [hword]; omega), hword]
      · rw [if_neg hb,
          if_neg (show ¬ o < (word ++ body).length from by
            rw [List.length_append, hword]; omega)]

theorem entryBytes_length (level timestamp : Nat) (msg : List Nat)
    (h : 12 + msg.length + 3 < 2 ^ 32) :
    (entryBytes level timestamp msg).length = align_up (12 + msg.length) := by
  have hs := align_up_spec (12 + msg.length) h
  simp only [entryBytes, List.length_append, le32, List.length_cons,
    List.length_nil, List.length_map, List.length_replicate]
  omega

theorem entryBytes_lt (level timestamp : Nat) (msg : List Nat) :
    ∀ b ∈ entryBytes level timestamp msg, b < 256 := by
  intro b hb
  rw [entryBytes] at hb
  rcases List.mem_append.mp hb with h | h
  · exact le32_lt _ b h
  · rcases List.mem_append.mp h with h1 | h1
    · rcases List.mem_append.mp h1 with h2 | h2
      · rcases List.mem_append.mp h2 with h3 | h3
        · exact le32_lt _ b h3
        · exact le32_lt _ b h3
      · obtain ⟨c, _, rfl⟩ := List.mem_map.mp h2
        omega
    · rw [List.eq_of_mem_replicate h1]
      omega

/-- `unilog_write_internal` success: with the threshold passed, the size
check passed and enough free space, the write returns OK, advances
`write_pos` by the aligned total, and stores exactly the entry's byte image
at the old `write_pos`. -/
theorem unilog_write_ok (k : Nat) (l : unilog_t) (level timestamp : Nat)
    (msg : List Nat)
    (hcap : l.buffer.capacity = 2 ^ k) (hk : k ≤ 32)
    (hlen : l.buffer.data.length = 2 ^ k)
    (hrp : l.buffer.read_pos < 2 ^ k)
    (hlvl : l.min_level ≤ level)
    (hsz : 12 + msg.length ≤ 2 ^ k / 2)
    (hfree : align_up (12 + msg.length) ≤
      2 ^ k - (l.buffer.write_pos + 2 ^ k - l.buffer.read_pos) % 2 ^ k - 1) :
    unilog_write_internal (some l) level timestamp (some msg) =
      (UNILOG_OK, some ⟨⟨(l.buffer.write_pos + align_up (12 + msg.length)) % 2 ^ k,
        l.buffer.read_pos, 2 ^ k,
        ringWrite l.buffer.data (2 ^ k - 1) l.buffer.write_pos
          (entryBytes level timestamp msg)⟩, l.min_level⟩) := by
  obtain ⟨⟨wp, rp, C0, data⟩, ml⟩ := l
  simp only at hcap hlen hrp hlvl hfree hsz ⊢
  subst hcap
  have hC32 : 2 ^ k ≤ 2 ^ 32 := Nat.pow_le_pow_right (by omega) hk
  have hC2 : 2 ^ k / 2 ≤ 2 ^ 31 := by
    have : (2 : Nat) ^ 32 / 2 = 2 ^ 31 := by norm_num
    omega
  have hmod : (12 + msg.length) % 2 ^ 32 = 12 + msg.length :=
    Nat.mod_eq_of_lt (by omega)
  have halign := align_up_spec (12 + msg.length) (by omega)
  simp only [unilog_write_internal]
  rw [if_neg (show ¬ level < ml from by omega)]
  rw [hmod]
  rw [if_neg (show ¬ 2 ^ k / 2 < 12 + msg.length from by omega)]
  rw [used_eq k wp rp hk hrp]
  rw [if_neg (show ¬ 2 ^ k - (wp + 2 ^ k - rp) % 2 ^ k - 1 <
      align_up (12 + msg.length) from by omega)]
  rw [write_data_eq k data wp (le32 (12 + msg.length))
    (le32 level ++ le32 timestamp ++ msg.map (fun b => b % 256) ++
      List.replicate (align_up (12 + msg.length) - (12 + msg.length)) 0)
    hlen rfl
    (by simp only [List.length_append, le32, List.length_cons,
          List.length_nil, List.length_map, List.length_replicate]
        omega)]
  rw [and_mask_eq_mod]
  rfl

/-- `unilog_write_internal` FULL: with the threshold and size checks passed
but the aligned size exceeding the free space `C - used - 1`, the write
returns FULL and the logger is unchanged. -/
theorem unilog_write_full (k : Nat) (l : unilog_t) (level timestamp : Nat)
    (msg : List Nat)
    (hcap : l.buffer.capacity = 2 ^ k) (hk : k ≤ 32)
    (hrp : l.buffer.read_pos < 2 ^ k)
    (hlvl : l.min_level ≤ level)
    (hsz : 12 + msg.length ≤ 2 ^ k / 2)
    (hfull : 2 ^ k - (l.buffer.write_pos + 2 ^ k - l.buffer.read_pos) % 2 ^ k - 1 <
      align_up (12 + msg.length)) :
    unilog_write_internal (some l) level timestamp (some msg) =
      (UNILOG_ERR_FULL, some l) := by
  obtain ⟨⟨wp, rp, C0, data⟩, ml⟩ := l
  simp only at hcap hrp hlvl hfull hsz ⊢
  subst hcap
  have hC32 : 2 ^ k ≤ 2 ^ 32 := Nat.pow_le_pow_right (by omega) hk
  have hC2 : 2 ^ k / 2 ≤ 2 ^ 31 := by
    have : (2 : Nat) ^ 32 / 2 = 2 ^ 31 := by norm_num
    omega
  have hmod : (12 + msg.length) % 2 ^ 32 = 12 + msg.length :=
    Nat.mod_eq_of_lt (by omega)
  simp only [unilog_write_internal]
  rw [if_neg (show ¬ level < ml from by omega)]
  rw [hmod]
  rw [if_neg (show ¬ 2 ^ k / 2 < 12 + msg.length from by omega)]
  rw [used_eq k wp rp hk hrp]
  rw [if_pos (show 2 ^ k - (wp + 2 ^ k - rp) % 2 ^ k - 1 <
      align_up (12 + msg.length) from hfull)]

theorem mask_add (k x y : Nat) :
    ((x &&& (2 ^ k - 1)) + y) &&& (2 ^ k - 1) = (x + y) &&& (2 ^ k - 1) := by
  simp only [and_mask_eq_mod, Nat.mod_add_mod]

theorem circ_off_base (k : Nat) (rp d i : Nat) :
    ((rp + d + i) % 2 ^ k + 2 ^ k - rp % 2 ^ k) % 2 ^ k = (d + i) % 2 ^ k := by
  rw [show rp + d + i = rp + (d + i) by omega]
  exact circ_add _ _ _ (Nat.two_pow_pos k)

theorem circ_off_shift (k : Nat) (rp a d i : Nat) (ha : a ≤ d) :
    ((rp + d + i) % 2 ^ k + 2 ^ k - ((rp + a) &&& (2 ^ k - 1)) % 2 ^ k) % 2 ^ k
      = (d - a + i) % 2 ^ k := by
  rw [and_mask_eq_mod, Nat.mod_mod_of_dvd _ dvd_rfl]
  rw [show rp + d + i = (rp + a) + (d - a + i) by omega]
  exact circ_add _ _ _ (Nat.two_pow_pos k)

theorem ringBytes_untouched (k : Nat) (data bytes : List Nat)
    (pos base n : Nat) (hlen : data.length = 2 ^ k)
    (hble : bytes.length ≤ 2 ^ k)
    (h : ∀ i, i < n →
      bytes.length ≤ ((base + i) % 2 ^ k + 2 ^ k - pos % 2 ^ k) % 2 ^ k) :
    ringBytes (ringWrite data (2 ^ k - 1) pos bytes) (2 ^ k - 1) base n =
      ringBytes data (2 ^ k - 1) base n := by
  have hC : 0 < 2 ^ k := Nat.two_pow_pos k
  rw [ringBytes_eq_map, ringBytes_eq_map]
  apply List.map_congr_left
  intro i hi
  exact ringWrite_getD_ge k data pos _ bytes hlen hble (Nat.mod_lt _ hC)
    (h i (List.mem_range.mp hi))

theorem ringBytes_split (k : Nat) (data : List Nat) (pos m n : Nat) :
    ringBytes data (2 ^ k - 1) pos (m + n) =
      ringBytes data (2 ^ k - 1) pos m ++
        ringBytes data (2 ^ k - 1) (pos + m) n := by
  rw [ringBytes_eq_map, ringBytes_eq_map, ringBytes_eq_map, List.range_add,
    List.map_append, List.map_map]
  congr 1
  apply List.map_congr_left
  intro i _
  simp only [Function.comp_apply]
  rw [show pos + (m + i) = pos + m + i by omega]

theorem read_zero_collapse (k : Nat) (data : List Nat) (rp cl pad : Nat) :
    ringWrite (ringWrite (ringWrite (ringWrite data (2 ^ k - 1) rp
        (List.replicate 4 0)) (2 ^ k - 1) ((rp + 4) &&& (2 ^ k - 1))
        (List.replicate 8 0)) (2 ^ k - 1) ((rp + 12) &&& (2 ^ k - 1))
        (List.replicate cl 0)) (2 ^ k - 1) ((rp + 12 + cl) &&& (2 ^ k - 1))
        (List.replicate pad 0) =
      ringWrite data (2 ^ k - 1) rp (List.replicate (4 + 8 + cl + pad) 0) := by
  rw [show 4 + 8 + cl + pad = 4 + (8 + (cl + pad)) by omega]
  rw [List.replicate_add, List.replicate_add, List.replicate_add]
  rw [ringWrite_append k, ringWrite_append k, ringWrite_append k]
  simp only [List.length_replicate, mask_add]

theorem ringBytes_split8 (k : Nat) (data : List Nat) (pos : Nat) :
    ringBytes data (2 ^ k - 1) pos 8 =
      ringBytes data (2 ^ k - 1) pos 4 ++
        ringBytes data (2 ^ k - 1) (pos + 4) 4 :=
  ringBytes_split k data pos 4 4

/-- `unilog_read` success: on a ring whose length word at `read_pos` holds a
valid entry length `12 ≤ L ≤ C/2`, a read with a non-null handle, outputs
and positive `out_cap` returns `min (L - 12) (out_cap - 1)` copied bytes,
stores the entry's level and timestamp words, copies that payload prefix
plus a null terminator into the buffer, zeroes the whole consumed aligned
region and advances `read_pos` by `align4 L`. -/
theorem unilog_read_entry (k : Nat) (l : unilog_t) (outb : List Nat)
    (bs level0 ts0 : Nat)
    (hcap : l.buffer.capacity = 2 ^ k) (hk : k ≤ 32)
    (hlen : l.buffer.data.length = 2 ^ k)
    (hrp : l.buffer.read_pos < 2 ^ k)
    (hne : l.buffer.read_pos ≠ l.buffer.write_pos)
    (hL12 : 12 ≤ wordAt l.buffer.data (2 ^ k) l.buffer.read_pos)
    (hLC : wordAt l.buffer.data (2 ^ k) l.buffer.read_pos ≤ 2 ^ k / 2)
    (hbs : 1 ≤ bs) (hout : bs ≤ outb.length) :
    unilog_read (some l) true true (some outb) bs level0 ts0 =
      ⟨((min (wordAt l.buffer.data (2 ^ k) l.buffer.read_pos - 12) (bs - 1) : Nat) : Int),
       some ⟨⟨l.buffer.write_pos,
         (l.buffer.read_pos +
           align_up (wordAt l.buffer.data (2 ^ k) l.buffer.read_pos)) % 2 ^ k,
         2 ^ k,
         ringWrite l.buffer.data (2 ^ k - 1) l.buffer.read_pos
           (List.replicate
             (align_up (wordAt l.buffer.data (2 ^ k) l.buffer.read_pos)) 0)⟩,
         l.min_level⟩,
       wordAt l.buffer.data (2 ^ k) (l.buffer.read_pos + 4),
       wordAt l.buffer.data (2 ^ k) (l.buffer.read_pos + 8),
       ringBytes l.buffer.data (2 ^ k - 1) (l.buffer.read_pos + 12)
           (min (wordAt l.buffer.data (2 ^ k) l.buffer.read_pos - 12) (bs - 1)) ++
         0 :: outb.drop
           (min (wordAt l.buffer.data (2 ^ k) l.buffer.read_pos - 12)
             (bs - 1) + 1)⟩ := by
  obtain ⟨⟨wp, rp, C0, data⟩, ml⟩ := l
  simp only at hcap hlen hrp hne hL12 hLC ⊢
  subst hcap
  have hC : 0 < 2 ^ k := Nat.two_pow_pos k
  have hC32 : 2 ^ k ≤ 2 ^ 32 := Nat.pow_le_pow_right (by omega) hk
  have hC2 : 2 ^ k / 2 ≤ 2 ^ 31 := by
    have h32 : (2 : Nat) ^ 32 / 2 = 2 ^ 31 := by norm_num
    omega
  have hCbig : 24 ≤ 2 ^ k := by omega
  have halign := align_up_spec (wordAt data (2 ^ k) rp) (by omega)
  simp only [unilog_read, Bool.not_true, Bool.false_or]
  rw [if_neg (show ¬ (bs == 0) = true from by simp; omega)]
  rw [if_neg (show ¬ (rp == wp) = true from by simpa using hne)]
  rw [show decodeLE (ringBytes data (2 ^ k - 1) rp 4) = wordAt data (2 ^ k) rp
    from rfl]
  rw [if_neg (show ¬ (wordAt data (2 ^ k) rp == 0) = true from by simp; omega)]
  rw [if_neg (show ¬ 2 ^ k / 2 < wordAt data (2 ^ k) rp from by omega)]
  rw [show (wordAt data (2 ^ k) rp + 2 ^ 32 - 12) % 2 ^ 32 =
      wordAt data (2 ^ k) rp - 12 from by
    rw [show wordAt data (2 ^ k) rp + 2 ^ 32 - 12 =
        (wordAt data (2 ^ k) rp - 12) + 2 ^ 32 from by omega,
      Nat.add_mod_right]
    exact Nat.mod_eq_of_lt (by omega)]
  rw [show (if wordAt data (2 ^ k) rp - 12 < bs then wordAt data (2 ^ k) rp - 12
      else (bs - 1) % 2 ^ 32) =
      min (wordAt data (2 ^ k) rp - 12) (bs - 1) from by
    split
    · omega
    · rw [Nat.mod_eq_of_lt (by omega)]
      omega]
  set cl := min (wordAt data (2 ^ k) rp - 12) (bs - 1) with hcl
  have hclb : cl ≤ wordAt data (2 ^ k) rp - 12 ∧ cl ≤ bs - 1 := by omega
  rw [ringBytes_mask_pos k, ringBytes_mask_pos k]
  rw [ringBytes_untouched k data (le32 0) rp (rp + 4) 8 hlen
      (by simp [le32]; omega)
      (by
        intro i hi
        rw [circ_off_base k rp 4 i, Nat.mod_eq_of_lt (by omega)]
        simp only [le32, List.length_cons, List.length_nil]
        omega)]
  rw [ringBytes_split8 k data (rp + 4)]
  rw [List.take_left' (ringBytes_length data (2 ^ k - 1) 4 (rp + 4)),
    List.drop_left' (ringBytes_length data (2 ^ k - 1) 4 (rp + 4))]
  rw [show rp + 4 + 4 = rp + 8 from by omega]
  rw [show decodeLE (ringBytes data (2 ^ k - 1) (rp + 4) 4) =
    wordAt data (2 ^ k) (rp + 4) from rfl]
  rw [show decodeLE (ringBytes data (2 ^ k - 1) (rp + 8) 4) =
    wordAt data (2 ^ k) (rp + 8) from rfl]
  rw [ringBytes_untouched k (ringWrite data (2 ^ k - 1) rp (le32 0))
      (List.replicate 8 0) ((rp + 4) &&& (2 ^ k - 1)) (rp + 12) cl
      (by rw [ringWrite_length]; exact hlen)
      (by simp only [List.length_replicate]; omega)
      (by
        intro i hi
        rw [circ_off_shift k rp 4 12 i (by omega), Nat.mod_eq_of_lt (by omega)]
        simp only [List.length_replicate]
        omega)]
  rw [ringBytes_untouched k data (le32 0) rp (rp + 12) cl hlen
      (by simp [le32]; omega)
      (by
        intro i hi
        rw [circ_off_base k rp 12 i, Nat.mod_eq_of_lt (by omega)]
        simp only [le32, List.length_cons, List.length_nil]
        omega)]
  rw [writeAt_zero _ outb (by rw [ringBytes_length]; omega)]
  rw [List.set_append_right _ _
    (by rw [ringBytes_length] : (ringBytes data (2 ^ k - 1) (rp + 12) cl).length ≤ cl)]
  rw [ringBytes_length]
  rw [Nat.sub_self]
  rw [List.drop_eq_getElem_cons (show cl < outb.length from by omega)]
  rw [List.set_cons_zero]
  have hpad : (((rp + align_up (wordAt data (2 ^ k) rp)) &&& (2 ^ k - 1)) + 2 ^ k -
      ((rp + 12 + cl) &&& (2 ^ k - 1))) % 2 ^ k =
      align_up (wordAt data (2 ^ k) rp) - 12 - cl := by
    rw [and_mask_eq_mod, and_mask_eq_mod]
    rw [show rp + align_up (wordAt data (2 ^ k) rp) =
        (rp + 12 + cl) + (align_up (wordAt data (2 ^ k) rp) - 12 - cl) from by
      omega]
    rw [circ_add _ _ _ hC]
    exact Nat.mod_eq_of_lt (by omega)
  rw [hpad]
  rw [show le32 0 = List.replicate 4 0 from by decide]
  rw [read_zero_collapse k data rp cl
    (align_up (wordAt data (2 ^ k) rp) - 12 - cl)]
  rw [show 4 + 8 + cl + (align_up (wordAt data (2 ^ k) rp) - 12 - cl) =
      align_up (wordAt data (2 ^ k) rp) from by omega]
  rw [and_mask_eq_mod]

theorem ringBytes_after_ringWrite_prefix (k : Nat) (data bytes : List Nat)
    (pos n : Nat) (hlen : data.length = 2 ^ k) (hble : bytes.length ≤ 2 ^ k)
    (h : n ≤ bytes.length) :
    ringBytes (ringWrite data (2 ^ k - 1) pos bytes) (2 ^ k - 1) pos n =
      bytes.take n := by
  have hs := ringBytes_after_ringWrite_slice k data bytes pos 0 n hlen hble
    (by omega)
  simpa using hs

theorem entryBytes_take4 (level timestamp : Nat) (msg : List Nat) :
    (entryBytes level timestamp msg).take 4 = le32 (12 + msg.length) := by
  rw [entryBytes, List.take_left' (show (le32 (12 + msg.length)).length = 4
    from rfl)]

theorem entryBytes_drop4_take4 (level timestamp : Nat) (msg : List Nat) :
    ((entryBytes level timestamp msg).drop 4).take 4 = le32 level := by
  rw [entryBytes, List.drop_left' (show (le32 (12 + msg.length)).length = 4
    from rfl)]
  rw [List.take_append_of_le_length (by simp [le32])]
  rw [List.take_append_of_le_length (by simp [le32])]
  rw [List.take_left' (show (le32 level).length = 4 from rfl)]

theorem entryBytes_drop8_take4 (level timestamp : Nat) (msg : List Nat) :
    ((entryBytes level timestamp msg).drop 8).take 4 = le32 timestamp := by
  rw [show entryBytes level timestamp msg =
      (le32 (12 + msg.length) ++ le32 level) ++
        (le32 timestamp ++ (msg.map (fun b => b % 256) ++
          List.replicate (align_up (12 + msg.length) - (12 + msg.length)) 0))
    from by rw [entryBytes]; simp [List.append_assoc]]
  rw [List.drop_left' (by simp [le32])]
  rw [List.take_append_of_le_length (by simp [le32])]
  rw [List.take_of_length_le (by simp [le32])]

theorem entryBytes_drop12_take (level timestamp : Nat) (msg : List Nat)
    (n : Nat) (h : n ≤ msg.length) :
    ((entryBytes level timestamp msg).drop 12).take n =
      (msg.map (fun b => b % 256)).take n := by
  rw [show entryBytes level timestamp msg =
      ((le32 (12 + msg.length) ++ le32 level) ++ le32 timestamp) ++
        (msg.map (fun b => b % 256) ++
          List.replicate (align_up (12 + msg.length) - (12 + msg.length)) 0)
    from by rw [entryBytes]; simp [List.append_assoc]]
  rw [List.drop_left' (by simp [le32])]
  rw [List.take_append_of_le_length (by simp; omega)]

theorem entry_decode (k : Nat) (data : List Nat) (wp level timestamp : Nat)
    (msg : List Nat) (hlen : data.length = 2 ^ k)
    (hno : 12 + msg.length + 3 < 2 ^ 32)
    (hsz : align_up (12 + msg.length) ≤ 2 ^ k) :
    wordAt (ringWrite data (2 ^ k - 1) wp (entryBytes level timestamp msg))
        (2 ^ k) wp = (12 + msg.length) % 2 ^ 32 ∧
    wordAt (ringWrite data (2 ^ k - 1) wp (entryBytes level timestamp msg))
        (2 ^ k) (wp + 4) = level % 2 ^ 32 ∧
    wordAt (ringWrite data (2 ^ k - 1) wp (entryBytes level timestamp msg))
        (2 ^ k) (wp + 8) = timestamp % 2 ^ 32 ∧
    ∀ n, n ≤ msg.length →
      ringBytes (ringWrite data (2 ^ k - 1) wp (entryBytes level timestamp msg))
          (2 ^ k - 1) (wp + 12) n = (msg.map (fun b => b % 256)).take n := by
  have hEL : (entryBytes level timestamp msg).length =
      align_up (12 + msg.length) := entryBytes_length level timestamp msg hno
  have halign := align_up_spec (12 + msg.length) hno
  refine ⟨?_, ?_, ?_, ?_⟩
  · rw [wordAt, ringBytes_after_ringWrite_prefix k data _ wp 4 hlen (by omega)
      (by omega), entryBytes_take4, decodeLE_le32]
  · rw [wordAt, ringBytes_after_ringWrite_slice k data _ wp 4 4 hlen (by omega)
      (by omega), entryBytes_drop4_take4, decodeLE_le32]
  · rw [wordAt, ringBytes_after_ringWrite_slice k data _ wp 8 4 hlen (by omega)
      (by omega), entryBytes_drop8_take4, decodeLE_le32]
  · intro n hn
    rw [ringBytes_after_ringWrite_slice k data _ wp 12 n hlen (by omega)
      (by omega), entryBytes_drop12_take level timestamp msg n hn]

/-- C1: round-trip law.  On a freshly initialized ring of capacity `2^k`,
writing `(level, timestamp, payload)` with `payload_len + 12 ≤ C/2` (the
real-arithmetic form of `payload_len ≤ C/2 − 12`) returns OK, and a read
with `out_cap > payload_len` returns exactly that level, that timestamp,
and the payload bytes followed by a null terminator. -/
theorem C1_round_trip (k level timestamp : Nat) (payload : List Nat)
    (out_cap : Nat) (out0 : List Nat) (hk : k ≤ 32)
    (hlvl : level < 2 ^ 32) (hts : timestamp < 2 ^ 32)
    (hbytes : ∀ b ∈ payload, b < 256)
    (hplen : payload.length + 12 ≤ 2 ^ k / 2)
    (hcap : payload.length < out_cap) (hout : out0.length = out_cap) :
    ∃ l1 l2,
      unilog_init true true (2 ^ k) = (UNILOG_OK, some l1) ∧
      unilog_write_raw (some l1) level timestamp (some payload) =
        (UNILOG_OK, some l2) ∧
      (unilog_read (some l2) true true (some out0) out_cap 0 0).ret =
        (payload.length : Int) ∧
      (unilog_read (some l2) true true (some out0) out_cap 0 0).level =
        level ∧
      (unilog_read (some l2) true true (some out0) out_cap 0 0).timestamp =
        timestamp ∧
      (unilog_read (some l2) true true (some out0) out_cap 0 0).out =
        payload ++ 0 :: out0.drop (payload.length + 1) := by
  have hC32 : 2 ^ k ≤ 2 ^ 32 := Nat.pow_le_pow_right (by omega) hk
  have hC2 : 2 ^ k / 2 ≤ 2 ^ 31 := by
    have h32 : (2 : Nat) ^ 32 / 2 = 2 ^ 31 := by norm_num
    omega
  have hCbig : 24 ≤ 2 ^ k := by omega
  have hno : 12 + payload.length + 3 < 2 ^ 32 := by omega
  have halign := align_up_spec (12 + payload.length) hno
  have halltC : align_up (12 + payload.length) < 2 ^ k := by omega
  have hdec := entry_decode k (List.replicate (2 ^ k) 0) 0 level timestamp
    payload (by simp) hno (by omega)
  have hLv : wordAt (ringWrite (List.replicate (2 ^ k) 0) (2 ^ k - 1) 0
      (entryBytes level timestamp payload)) (2 ^ k) 0 = 12 + payload.length := by
    rw [hdec.1]
    exact Nat.mod_eq_of_lt (by omega)
  refine ⟨⟨⟨0, 0, 2 ^ k, List.replicate (2 ^ k) 0⟩, UNILOG_LEVEL_TRACE⟩,
    ⟨⟨align_up (12 + payload.length), 0, 2 ^ k,
      ringWrite (List.replicate (2 ^ k) 0) (2 ^ k - 1) 0
        (entryBytes level timestamp payload)⟩, UNILOG_LEVEL_TRACE⟩,
    ?_, ?_, ?_⟩
  · rw [unilog_init, if_neg (by simp [is_power_of_2_two_pow])]
  · have h := unilog_write_ok k
      ⟨⟨0, 0, 2 ^ k, List.replicate (2 ^ k) 0⟩, UNILOG_LEVEL_TRACE⟩
      level timestamp payload rfl hk (by simp) (Nat.two_pow_pos k)
      (Nat.zero_le level) (by omega) (by simp; omega)
    have e : (0 + align_up (12 + payload.length)) % 2 ^ k =
        align_up (12 + payload.length) := by
      rw [Nat.zero_add]
      exact Nat.mod_eq_of_lt (by omega)
    simp only [unilog_write_raw]
    rw [h, e]
  · have hread := unilog_read_entry k
      ⟨⟨align_up (12 + payload.length), 0, 2 ^ k,
        ringWrite (List.replicate (2 ^ k) 0) (2 ^ k - 1) 0
          (entryBytes level timestamp payload)⟩, UNILOG_LEVEL_TRACE⟩
      out0 out_cap 0 0 rfl hk
      (by rw [ringWrite_length]; simp) (Nat.two_pow_pos k)
      (by simp only []; omega)
      (by simp only []; rw [hLv]; omega)
      (by simp only []; rw [hLv]; omega)
      (by omega) (by omega)
    simp only [] at hread
    rw [hread, hLv] at *
    have hcl : min (12 + payload.length - 12) (out_cap - 1) = payload.length := by
      omega
    rw [hcl]
    refine ⟨rfl, ?_, ?_, ?_⟩
    · rw [(hdec.2.1 : _ = level % 2 ^ 32)]
      exact Nat.mod_eq_of_lt hlvl
    · rw [(hdec.2.2.1 : _ = timestamp % 2 ^ 32)]
      exact Nat.mod_eq_of_lt hts
    · rw [hdec.2.2.2 payload.length (le_refl _)]
      rw [List.take_of_length_le (by simp)]
      have hmap : payload.map (fun b => b % 256) = payload.map id :=
        List.map_congr_left (fun b hb => Nat.mod_eq_of_lt (hbytes b hb))
      rw [hmap, List.map_id]

/-- Witness for C1: `C = 32`, payload `[1, 2, 3]`, `out_cap = 5`. -/
theorem C1_round_trip_witness :
    (([1, 2, 3] : List Nat).length + 12 ≤ 2 ^ 5 / 2) ∧
    ∃ l1 l2,
      unilog_init true true (2 ^ 5) = (UNILOG_OK, some l1) ∧
      unilog_write_raw (some l1) 4 7 (some [1, 2, 3]) = (UNILOG_OK, some l2) ∧
      (unilog_read (some l2) true true (some [9, 9, 9, 9, 9]) 5 0 0).ret =
        (([1, 2, 3] : List Nat).length : Int) ∧
      (unilog_read (some l2) true true (some [9, 9, 9, 9, 9]) 5 0 0).level = 4 ∧
      (unilog_read (some l2) true true (some [9, 9, 9, 9, 9]) 5 0 0).timestamp =
        7 ∧
      (unilog_read (some l2) true true (some [9, 9, 9, 9, 9]) 5 0 0).out =
        [1, 2, 3] ++ 0 :: ([9, 9, 9, 9, 9] : List Nat).drop
          (([1, 2, 3] : List Nat).length + 1) :=
  ⟨by decide,
   C1_round_trip 5 4 7 [1, 2, 3] 5 [9, 9, 9, 9, 9] (by decide) (by decide)
     (by decide) (by decide) (by decide) (by decide) (by decide)⟩

/-- C8: every successful read of an entry of stored length `L` into a buffer
of `out_cap ≥ 1` returns `copy_len = min (L − 12) (out_cap − 1)`, copies
exactly those payload bytes to the front of the buffer, and writes a null
terminator at index `copy_len`. -/
theorem C8_truncation (k : Nat) (l : unilog_t) (outb : List Nat)
    (bs level0 ts0 : Nat)
    (hcap : l.buffer.capacity = 2 ^ k) (hk : k ≤ 32)
    (hlen : l.buffer.data.length = 2 ^ k)
    (hrp : l.buffer.read_pos < 2 ^ k)
    (hne : l.buffer.read_pos ≠ l.buffer.write_pos)
    (hL12 : 12 ≤ wordAt l.buffer.data (2 ^ k) l.buffer.read_pos)
    (hLC : wordAt l.buffer.data (2 ^ k) l.buffer.read_pos ≤ 2 ^ k / 2)
    (hbs : 1 ≤ bs) (hout : bs ≤ outb.length) :
    (unilog_read (some l) true true (some outb) bs level0 ts0).ret =
      ((min (wordAt l.buffer.data (2 ^ k) l.buffer.read_pos - 12)
        (bs - 1) : Nat) : Int) ∧
    (unilog_read (some l) true true (some outb) bs level0 ts0).out.take
        (min (wordAt l.buffer.data (2 ^ k) l.buffer.read_pos - 12) (bs - 1)) =
      ringBytes l.buffer.data (2 ^ k - 1) (l.buffer.read_pos + 12)
        (min (wordAt l.buffer.data (2 ^ k) l.buffer.read_pos - 12) (bs - 1)) ∧
    (unilog_read (some l) true true (some outb) bs level0 ts0).out.getD
        (min (wordAt l.buffer.data (2 ^ k) l.buffer.read_pos - 12) (bs - 1))
        0 = 0 := by
  rw [unilog_read_entry k l outb bs level0 ts0 hcap hk hlen hrp hne hL12 hLC
    hbs hout]
  refine ⟨rfl, ?_, ?_⟩
  · exact List.take_left' (ringBytes_length _ _ _ _)
  · rw [getD_append_right_nat _ _ _ (le_of_eq (ringBytes_length _ _ _ _))]
    rw [ringBytes_length, Nat.sub_self]
    rfl

/-- Witness for C8: a stored entry of length 16 in a capacity-32 ring read
with `out_cap = 1`: zero bytes copied, `out[0] = 0`, return value 0. -/
theorem C8_truncation_witness :
    (unilog_read (some ⟨⟨16, 0, 32, 16 :: List.replicate 31 0⟩, 0⟩) true true
      (some [7]) 1 0 0).ret =
      ((min (wordAt (16 :: List.replicate 31 0) (2 ^ 5) 0 - 12)
        (1 - 1) : Nat) : Int) ∧
    (unilog_read (some ⟨⟨16, 0, 32, 16 :: List.replicate 31 0⟩, 0⟩) true true
      (some [7]) 1 0 0).out.take
        (min (wordAt (16 :: List.replicate 31 0) (2 ^ 5) 0 - 12) (1 - 1)) =
      ringBytes (16 :: List.replicate 31 0) (2 ^ 5 - 1) (0 + 12)
        (min (wordAt (16 :: List.replicate 31 0) (2 ^ 5) 0 - 12) (1 - 1)) ∧
    (unilog_read (some ⟨⟨16, 0, 32, 16 :: List.replicate 31 0⟩, 0⟩) true true
      (some [7]) 1 0 0).out.getD
        (min (wordAt (16 :: List.replicate 31 0) (2 ^ 5) 0 - 12) (1 - 1))
        0 = 0 :=
  C8_truncation 5 ⟨⟨16, 0, 32, 16 :: List.replicate 31 0⟩, 0⟩ [7] 1 0 0
    (by decide) (by decide) (by decide) (by decide) (by decide) (by decide)
    (by decide) (by decide) (by decide)

/-- C9: zeroing invariant.  After a successful `unilog_init` every backing
byte is zero; and after a read of a valid entry (stored length
`12 ≤ L ≤ C/2`) that returns a non-negative byte count, every byte of the
consumed aligned region — length word, header, full payload including
truncated bytes, and padding — is zero again. -/
theorem C9_zeroing :
    (∀ (lognn bufnn : Bool) (capacity : Nat) (r : Int) (l : unilog_t),
      unilog_init lognn bufnn capacity = (r, some l) →
      ∀ b ∈ l.buffer.data, b = 0) ∧
    (∀ (k : Nat) (l : unilog_t) (outb : List Nat) (bs level0 ts0 : Nat),
      l.buffer.capacity = 2 ^ k → k ≤ 32 →
      l.buffer.data.length = 2 ^ k →
      l.buffer.read_pos < 2 ^ k →
      l.buffer.read_pos ≠ l.buffer.write_pos →
      12 ≤ wordAt l.buffer.data (2 ^ k) l.buffer.read_pos →
      wordAt l.buffer.data (2 ^ k) l.buffer.read_pos ≤ 2 ^ k / 2 →
      1 ≤ bs → bs ≤ outb.length →
      ∀ lr,
        (unilog_read (some l) true true (some outb) bs level0 ts0).log =
          some lr →
        ∀ i < align_up (wordAt l.buffer.data (2 ^ k) l.buffer.read_pos),
          lr.buffer.data.getD ((l.buffer.read_pos + i) % 2 ^ k) 0 = 0) := by
  constructor
  · intro lognn bufnn capacity r l h
    rw [unilog_init] at h
    split at h
    · simp at h
    · injection h with h1 h2
      injection h2 with h3
      subst h3
      intro b hb
      simp only at hb
      exact List.eq_of_mem_replicate hb
  · intro k l outb bs level0 ts0 hcap hk hlen hrp hne hL12 hLC hbs hout lr
      hlr i hi
    have hC32 : 2 ^ k ≤ 2 ^ 32 := Nat.pow_le_pow_right (by omega) hk
    have hC2 : 2 ^ k / 2 ≤ 2 ^ 31 := by
      have h32 : (2 : Nat) ^ 32 / 2 = 2 ^ 31 := by norm_num
      omega
    have hCbig : 24 ≤ 2 ^ k := by omega
    have halign := align_up_spec (wordAt l.buffer.data (2 ^ k) l.buffer.read_pos)
      (by omega)
    rw [unilog_read_entry k l outb bs level0 ts0 hcap hk hlen hrp hne hL12 hLC
      hbs hout] at hlr
    injection hlr with h3
    subst h3
    simp only
    rw [ringWrite_getD_lt k l.buffer.data l.buffer.read_pos i _ hlen
      (by simp only [List.length_replicate]; omega)
      (by simp only [List.length_replicate]; omega)]
    simp

/-- Witness for C9 at concrete states: a fresh capacity-16 ring is
all-zero, and reading the single 16-byte entry of a capacity-32 ring zeroes
its first consumed byte. -/
theorem C9_zeroing_witness :
    ((0 : Nat) = 0) ∧
    (unilog_t.mk ⟨16, 16, 32, List.replicate 32 0⟩ 0).buffer.data.getD
      ((0 + 0) % 2 ^ 5) 0 = 0 :=
  ⟨C9_zeroing.1 true true 16 UNILOG_OK
      ⟨⟨0, 0, 16, List.replicate 16 0⟩, UNILOG_LEVEL_TRACE⟩ (by decide) 0
      (by decide),
   C9_zeroing.2 5 ⟨⟨16, 0, 32, 16 :: List.replicate 31 0⟩, 0⟩ [7] 1 0 0
     (by decide) (by decide) (by decide) (by decide) (by decide) (by decide)
     (by decide) (by decide) (by decide) ⟨⟨16, 16, 32, List.replicate 32 0⟩, 0⟩
     (by decide) 0 (by decide)⟩

/-! ## Position-normalization and congruence lemmas for the chain -/

theorem circ_add_lt (C b d : Nat) (hC : 0 < C) (hb : b < C) :
    ((b + d) % C + C - b) % C = d % C := by
  have h := circ_add C b d hC
  rwa [Nat.mod_eq_of_lt hb] at h

theorem rp_add_used (k : Nat) (rp wp : Nat) (hrp : rp < 2 ^ k)
    (hwp : wp < 2 ^ k) :
    (rp + (wp + 2 ^ k - rp) % 2 ^ k) % 2 ^ k = wp := by
  have hC : 0 < 2 ^ k := Nat.two_pow_pos k
  have hdm := Nat.div_add_mod (wp + 2 ^ k - rp) (2 ^ k)
  have hlt : (wp + 2 ^ k - rp) % 2 ^ k < 2 ^ k := Nat.mod_lt _ hC
  obtain ⟨q, hqe⟩ : ∃ q, (wp + 2 ^ k - rp) / 2 ^ k = q := ⟨_, rfl⟩
  rw [hqe] at hdm
  have hq2 : 2 ^ k * q < 2 ^ k * 2 := by omega
  have hq : q < 2 := Nat.lt_of_mul_lt_mul_left hq2
  have hq01 : q = 0 ∨ q = 1 := by omega
  rcases hq01 with h | h <;> rw [h] at hdm
  · rw [show rp + (wp + 2 ^ k - rp) % 2 ^ k = wp + 2 ^ k from by omega,
      Nat.add_mod_right, Nat.mod_eq_of_lt hwp]
  · rw [show rp + (wp + 2 ^ k - rp) % 2 ^ k = wp from by omega,
      Nat.mod_eq_of_lt hwp]

theorem used_shift (k : Nat) (rp wp a s : Nat) (hrp : rp < 2 ^ k)
    (hwp : wp < 2 ^ k)
    (hsum : a + s = (wp + 2 ^ k - rp) % 2 ^ k) :
    s = (wp + 2 ^ k - (rp + a) % 2 ^ k) % 2 ^ k := by
  have hC : 0 < 2 ^ k := Nat.two_pow_pos k
  have h1 : (rp + (a + s)) % 2 ^ k = wp := by
    rw [hsum]
    exact rp_add_used k rp wp hrp hwp
  have h2 : ((rp + a) % 2 ^ k + s) % 2 ^ k = wp := by
    rw [Nat.mod_add_mod, show rp + a + s = rp + (a + s) from by omega]
    exact h1
  rw [← h2, circ_add_lt _ _ _ hC (Nat.mod_lt _ hC), Nat.mod_eq_of_lt]
  omega

theorem circ_shift_back (k : Nat) (rp wp i : Nat) (hrp : rp < 2 ^ k)
    (hi : i < (wp + 2 ^ k - rp) % 2 ^ k) :
    ((rp + i) % 2 ^ k + 2 ^ k - wp % 2 ^ k) % 2 ^ k =
      2 ^ k - (wp + 2 ^ k - rp) % 2 ^ k + i := by
  have hC : 0 < 2 ^ k := Nat.two_pow_pos k
  have hdm := Nat.div_add_mod (wp + 2 ^ k - rp) (2 ^ k)
  have hlt : (wp + 2 ^ k - rp) % 2 ^ k < 2 ^ k := Nat.mod_lt _ hC
  have h2 : wp + (2 ^ k - (wp + 2 ^ k - rp) % 2 ^ k) =
      rp + 2 ^ k * ((wp + 2 ^ k - rp) / 2 ^ k) := by omega
  have h1 : (wp + (2 ^ k - (wp + 2 ^ k - rp) % 2 ^ k)) % 2 ^ k = rp := by
    rw [h2, Nat.add_mul_mod_self_left, Nat.mod_eq_of_lt hrp]
  have h3 : (rp + i) % 2 ^ k =
      (wp + ((2 ^ k - (wp + 2 ^ k - rp) % 2 ^ k) + i)) % 2 ^ k := by
    conv_rhs =>
      rw [show wp + ((2 ^ k - (wp + 2 ^ k - rp) % 2 ^ k) + i) =
          (wp + (2 ^ k - (wp + 2 ^ k - rp) % 2 ^ k)) + i from by omega,
        ← Nat.mod_add_mod, h1]
  rw [h3, circ_add _ _ _ hC, Nat.mod_eq_of_lt (by omega)]

theorem ringBytes_mod_pos (k : Nat) (data : List Nat) (n pos : Nat) :
    ringBytes data (2 ^ k - 1) (pos % 2 ^ k) n =
      ringBytes data (2 ^ k - 1) pos n := by
  have h := ringBytes_mask_pos k data n pos
  rwa [and_mask_eq_mod] at h

theorem ringBytes_mod_add (k : Nat) (data : List Nat) (n pos d : Nat) :
    ringBytes data (2 ^ k - 1) (pos % 2 ^ k + d) n =
      ringBytes data (2 ^ k - 1) (pos + d) n := by
  rw [ringBytes_eq_map, ringBytes_eq_map]
  apply List.map_congr_left
  intro i _
  rw [show pos % 2 ^ k + d + i = pos % 2 ^ k + (d + i) from by omega,
    Nat.mod_add_mod, show pos + (d + i) = pos + d + i from by omega]

theorem wordAt_mod (k : Nat) (data : List Nat) (pos : Nat) :
    wordAt data (2 ^ k) (pos % 2 ^ k) = wordAt data (2 ^ k) pos := by
  rw [wordAt, wordAt, ringBytes_mod_pos]

theorem wordAt_mod_add (k : Nat) (data : List Nat) (pos d : Nat) :
    wordAt data (2 ^ k) (pos % 2 ^ k + d) = wordAt data (2 ^ k) (pos + d) := by
  rw [wordAt, wordAt, ringBytes_mod_add]

theorem entryAt_mod (k : Nat) (data : List Nat) (pos L : Nat) :
    entryAt data (2 ^ k) (pos % 2 ^ k) L = entryAt data (2 ^ k) pos L := by
  rw [entryAt, entryAt, wordAt_mod_add, wordAt_mod_add, ringBytes_mod_add]

theorem ringBytes_congr (k : Nat) (d1 d2 : List Nat) (pos n : Nat)
    (h : ∀ t, t < n →
      d2.getD ((pos + t) % 2 ^ k) 0 = d1.getD ((pos + t) % 2 ^ k) 0) :
    ringBytes d2 (2 ^ k - 1) pos n = ringBytes d1 (2 ^ k - 1) pos n := by
  rw [ringBytes_eq_map, ringBytes_eq_map]
  apply List.map_congr_left
  intro i hi
  exact h i (List.mem_range.mp hi)

theorem wordAt_congr (k : Nat) (d1 d2 : List Nat) (pos : Nat)
    (h : ∀ t, t < 4 →
      d2.getD ((pos + t) % 2 ^ k) 0 = d1.getD ((pos + t) % 2 ^ k) 0) :
    wordAt d2 (2 ^ k) pos = wordAt d1 (2 ^ k) pos := by
  rw [wordAt, wordAt, ringBytes_congr k d1 d2 pos 4 h]

theorem entryAt_congr (k : Nat) (d1 d2 : List Nat) (pos L : Nat)
    (hL : 12 ≤ L)
    (h : ∀ t, t < L →
      d2.getD ((pos + t) % 2 ^ k) 0 = d1.getD ((pos + t) % 2 ^ k) 0) :
    entryAt d2 (2 ^ k) pos L = entryAt d1 (2 ^ k) pos L := by
  rw [entryAt, entryAt]
  simp only [Prod.mk.injEq]
  refine ⟨?_, ?_, ?_⟩
  · apply wordAt_congr
    intro t ht
    rw [show pos + 4 + t = pos + (4 + t) from by omega]
    exact h (4 + t) (by omega)
  · apply wordAt_congr
    intro t ht
    rw [show pos + 8 + t = pos + (8 + t) from by omega]
    exact h (8 + t) (by omega)
  · apply ringBytes_congr
    intro t ht
    rw [show pos + 12 + t = pos + (12 + t) from by omega]
    exact h (12 + t) (by omega)

theorem chain_agree (k : Nat) (hk : k ≤ 32) (d1 d2 : List Nat)
    (lens : List Nat) :
    ∀ rp, chainOK d1 (2 ^ k) rp lens →
      (∀ i, i < (lens.map align_up).sum →
        d2.getD ((rp + i) % 2 ^ k) 0 = d1.getD ((rp + i) % 2 ^ k) 0) →
      chainOK d2 (2 ^ k) rp lens ∧
      chainEntries d2 (2 ^ k) rp lens = chainEntries d1 (2 ^ k) rp lens := by
  induction lens with
  | nil => intro rp _ _; exact ⟨trivial, rfl⟩
  | cons L rest ih =>
      intro rp hOK hag
      obtain ⟨hw, h12, hL2, hrest⟩ := hOK
      have hC32 : 2 ^ k ≤ 2 ^ 32 := Nat.pow_le_pow_right (by omega) hk
      have hC2 : 2 ^ k / 2 ≤ 2 ^ 31 := by
        have h32 : (2 : Nat) ^ 32 / 2 = 2 ^ 31 := by norm_num
        omega
      have halign := align_up_spec L (by omega)
      have hsum : (List.map align_up (L :: rest)).sum =
          align_up L + (List.map align_up rest).sum := by simp
      have hagL : ∀ i, i < align_up L →
          d2.getD ((rp + i) % 2 ^ k) 0 = d1.getD ((rp + i) % 2 ^ k) 0 :=
        fun i hi => hag i (by omega)
      have hw2 : wordAt d2 (2 ^ k) rp = L := by
        rw [wordAt_congr k d1 d2 rp (fun t ht => hagL t (by omega))]
        exact hw
      have htail := ih ((rp + align_up L) % 2 ^ k) hrest
        (by
          intro i hi
          rw [Nat.mod_add_mod, show rp + align_up L + i = rp + (align_up L + i)
            from by omega]
          exact hag (align_up L + i) (by omega))
      refine ⟨⟨hw2, h12, hL2, htail.1⟩, ?_⟩
      show entryAt d2 (2 ^ k) rp L :: _ = entryAt d1 (2 ^ k) rp L :: _
      rw [htail.2, entryAt_congr k d1 d2 rp L h12 (fun t ht => hagL t (by omega))]

theorem chainOK_snoc (k : Nat) (data : List Nat) (Lnew : Nat)
    (lens : List Nat) :
    ∀ rp, chainOK data (2 ^ k) rp lens →
      wordAt data (2 ^ k) ((rp + (lens.map align_up).sum) % 2 ^ k) = Lnew →
      12 ≤ Lnew → Lnew ≤ 2 ^ k / 2 →
      chainOK data (2 ^ k) rp (lens ++ [Lnew]) := by
  induction lens with
  | nil =>
      intro rp _ hw h1 h2
      refine ⟨?_, h1, h2, trivial⟩
      rw [show rp + (List.map align_up []).sum = rp from by simp] at hw
      rw [← hw, wordAt_mod]
  | cons L rest ih =>
      intro rp hOK hw h1 h2
      obtain ⟨ha, hb, hc, hd⟩ := hOK
      refine ⟨ha, hb, hc, ih ((rp + align_up L) % 2 ^ k) hd ?_ h1 h2⟩
      rw [Nat.mod_add_mod, show rp + align_up L + (List.map align_up rest).sum
          = rp + (List.map align_up (L :: rest)).sum from by simp; omega]
      exact hw

theorem chainEntries_snoc (k : Nat) (data : List Nat) (Lnew : Nat)
    (lens : List Nat) :
    ∀ rp, chainEntries data (2 ^ k) rp (lens ++ [Lnew]) =
      chainEntries data (2 ^ k) rp lens ++
        [entryAt data (2 ^ k) ((rp + (lens.map align_up).sum) % 2 ^ k) Lnew] := by
  induction lens with
  | nil =>
      intro rp
      show [entryAt data (2 ^ k) rp Lnew] = _
      rw [show rp + (List.map align_up []).sum = rp from by simp]
      rw [← entryAt_mod k data rp Lnew]
      rfl
  | cons L rest ih =>
      intro rp
      rw [show (L :: rest) ++ [Lnew] = L :: (rest ++ [Lnew]) from rfl]
      simp only [chainEntries, List.cons_append]
      rw [ih ((rp + align_up L) % 2 ^ k)]
      rw [Nat.mod_add_mod, show rp + align_up L + (List.map align_up rest).sum
          = rp + (List.map align_up (L :: rest)).sum from by simp; omega]

theorem unilog_write_drop (l : unilog_t) (level timestamp : Nat)
    (msg : List Nat) (h : level < l.min_level) :
    unilog_write_internal (some l) level timestamp (some msg) =
      (UNILOG_OK, some l) := by
  simp [unilog_write_internal, h]

theorem unilog_write_oversize (l : unilog_t) (level timestamp : Nat)
    (msg : List Nat) (hlvl : l.min_level ≤ level)
    (hsz : l.buffer.capacity / 2 < 12 + msg.length)
    (hnof : 12 + msg.length < 2 ^ 32) :
    unilog_write_internal (some l) level timestamp (some msg) =
      (UNILOG_ERR_INVALID, some l) := by
  simp [unilog_write_internal, Nat.not_lt.mpr hlvl, Nat.mod_eq_of_lt hnof, hsz]
  intro hle
  exact absurd hle (by omega)

theorem chainOK_length_le (k : Nat) (data : List Nat) (lens : List Nat)
    (hk : k ≤ 32) :
    ∀ rp, chainOK data (2 ^ k) rp lens →
      12 * lens.length ≤ (lens.map align_up).sum := by
  induction lens with
  | nil => intro rp _; simp
  | cons L rest ih =>
      intro rp hOK
      obtain ⟨hw, h12, hL2, hrest⟩ := hOK
      have hC32 : 2 ^ k ≤ 2 ^ 32 := Nat.pow_le_pow_right (by omega) hk
      have hC2 : 2 ^ k / 2 ≤ 2 ^ 31 := by
        have h32 : (2 : Nat) ^ 32 / 2 = 2 ^ 31 := by norm_num
        omega
      have halign := align_up_spec L (by omega)
      have := ih ((rp + align_up L) % 2 ^ k) hrest
      simp only [List.map_cons, List.sum_cons, List.length_cons]
      omega

theorem WF_write (k : Nat) (data : List Nat) (rp wp : Nat) (lens : List Nat)
    (level timestamp : Nat) (msg : List Nat)
    (hWF : WFdata k data rp wp lens)
    (hsz : 12 + msg.length ≤ 2 ^ k / 2)
    (hfree : align_up (12 + msg.length) ≤
      2 ^ k - (wp + 2 ^ k - rp) % 2 ^ k - 1) :
    WFdata k (ringWrite data (2 ^ k - 1) wp (entryBytes level timestamp msg))
      rp ((wp + align_up (12 + msg.length)) % 2 ^ k)
      (lens ++ [12 + msg.length]) ∧
    chainEntries
        (ringWrite data (2 ^ k - 1) wp (entryBytes level timestamp msg))
        (2 ^ k) rp (lens ++ [12 + msg.length]) =
      chainEntries data (2 ^ k) rp lens ++
        [(level % 2 ^ 32, timestamp % 2 ^ 32,
          msg.map (fun b => b % 256))] := by
  obtain ⟨hk, hlen, hrpC, hwpC, hbytes, hchain, hsum⟩ := hWF
  have hC : 0 < 2 ^ k := Nat.two_pow_pos k
  have hC32 : 2 ^ k ≤ 2 ^ 32 := Nat.pow_le_pow_right (by omega) hk
  have hC2 : 2 ^ k / 2 ≤ 2 ^ 31 := by
    have h32 : (2 : Nat) ^ 32 / 2 = 2 ^ 31 := by norm_num
    omega
  have hno : 12 + msg.length + 3 < 2 ^ 32 := by omega
  have halign := align_up_spec (12 + msg.length) hno
  have hEL : (entryBytes level timestamp msg).length =
      align_up (12 + msg.length) := entryBytes_length level timestamp msg hno
  have hu : (wp + 2 ^ k - rp) % 2 ^ k < 2 ^ k := Nat.mod_lt _ hC
  have hag : ∀ i, i < (lens.map align_up).sum →
      (ringWrite data (2 ^ k - 1) wp (entryBytes level timestamp msg)).getD
        ((rp + i) % 2 ^ k) 0 = data.getD ((rp + i) % 2 ^ k) 0 := by
    intro i hi
    rw [hsum] at hi
    apply ringWrite_getD_ge k data wp _ _ hlen (by omega) (Nat.mod_lt _ hC)
    rw [circ_shift_back k rp wp i hrpC hi]
    omega
  have hagree := chain_agree k hk data _ lens rp hchain hag
  have hdec := entry_decode k data wp level timestamp msg hlen hno (by omega)
  have hpos : (rp + (lens.map align_up).sum) % 2 ^ k = wp := by
    rw [hsum]
    exact rp_add_used k rp wp hrpC hwpC
  have hwnew : wordAt (ringWrite data (2 ^ k - 1) wp
      (entryBytes level timestamp msg)) (2 ^ k)
      ((rp + (lens.map align_up).sum) % 2 ^ k) = 12 + msg.length := by
    rw [hpos, hdec.1, Nat.mod_eq_of_lt (by omega)]
  have hused : ((lens ++ [12 + msg.length]).map align_up).sum =
      ((wp + align_up (12 + msg.length)) % 2 ^ k + 2 ^ k - rp) % 2 ^ k := by
    have h1 : (wp + align_up (12 + msg.length)) % 2 ^ k =
        (rp + ((lens.map align_up).sum + align_up (12 + msg.length))) %
          2 ^ k := by
      conv_lhs => rw [← rp_add_used k rp wp hrpC hwpC]
      rw [Nat.mod_add_mod,
        show rp + (wp + 2 ^ k - rp) % 2 ^ k + align_up (12 + msg.length) =
          rp + ((wp + 2 ^ k - rp) % 2 ^ k + align_up (12 + msg.length))
          from by omega, ← hsum]
    rw [h1, circ_add_lt _ _ _ hC hrpC, Nat.mod_eq_of_lt (by omega)]
    simp
  have hEnt : entryAt (ringWrite data (2 ^ k - 1) wp
      (entryBytes level timestamp msg)) (2 ^ k) wp (12 + msg.length) =
      (level % 2 ^ 32, timestamp % 2 ^ 32, msg.map (fun b => b % 256)) := by
    rw [entryAt, hdec.2.1, hdec.2.2.1,
      show 12 + msg.length - 12 = msg.length from by omega,
      hdec.2.2.2 msg.length (le_refl _),
      List.take_of_length_le (by simp)]
  refine ⟨⟨hk, ?_, hrpC, Nat.mod_lt _ hC, ?_, ?_, hused⟩, ?_⟩
  · rw [ringWrite_length]; exact hlen
  · exact ringWrite_bytes_lt _ data _ wp hbytes
      (entryBytes_lt level timestamp msg)
  · exact chainOK_snoc k _ _ lens rp hagree.1 hwnew (by omega) (by omega)
  · rw [chainEntries_snoc k _ _ lens rp, hagree.2, hpos, hEnt]

theorem unilog_read_empty (l : unilog_t) (outb : List Nat)
    (bs level0 ts0 : Nat) (hbs : bs ≠ 0)
    (he : l.buffer.read_pos = l.buffer.write_pos) :
    unilog_read (some l) true true (some outb) bs level0 ts0 =
      ⟨UNILOG_ERR_EMPTY, some l, level0, ts0, outb⟩ := by
  simp [unilog_read, hbs, he]

theorem unilog_read_zerocap (l : unilog_t) (outb : List Nat)
    (level0 ts0 : Nat) :
    unilog_read (some l) true true (some outb) 0 level0 ts0 =
      ⟨UNILOG_ERR_INVALID, some l, level0, ts0, outb⟩ := rfl

theorem WF_read (k : Nat) (data : List Nat) (rp wp : Nat) (L : Nat)
    (rest : List Nat) (ml : Nat) (outb : List Nat) (bs level0 ts0 : Nat)
    (hWF : WFdata k data rp wp (L :: rest)) (hbs : 1 ≤ bs)
    (hout : bs ≤ outb.length) :
    unilog_read (some ⟨⟨wp, rp, 2 ^ k, data⟩, ml⟩) true true (some outb) bs
        level0 ts0 =
      ⟨((min (L - 12) (bs - 1) : Nat) : Int),
       some ⟨⟨wp, (rp + align_up L) % 2 ^ k, 2 ^ k,
         ringWrite data (2 ^ k - 1) rp (List.replicate (align_up L) 0)⟩, ml⟩,
       wordAt data (2 ^ k) (rp + 4), wordAt data (2 ^ k) (rp + 8),
       ringBytes data (2 ^ k - 1) (rp + 12) (min (L - 12) (bs - 1)) ++
         0 :: outb.drop (min (L - 12) (bs - 1) + 1)⟩ ∧
    WFdata k (ringWrite data (2 ^ k - 1) rp (List.replicate (align_up L) 0))
      ((rp + align_up L) % 2 ^ k) wp rest ∧
    chainEntries (ringWrite data (2 ^ k - 1) rp (List.replicate (align_up L) 0))
        (2 ^ k) ((rp + align_up L) % 2 ^ k) rest =
      chainEntries data (2 ^ k) ((rp + align_up L) % 2 ^ k) rest := by
  obtain ⟨hk, hlen, hrpC, hwpC, hbytes, hchain, hsum⟩ := hWF
  obtain ⟨hw, h12, hL2, hrest⟩ := hchain
  have hC : 0 < 2 ^ k := Nat.two_pow_pos k
  have hC32 : 2 ^ k ≤ 2 ^ 32 := Nat.pow_le_pow_right (by omega) hk
  have hC2 : 2 ^ k / 2 ≤ 2 ^ 31 := by
    have h32 : (2 : Nat) ^ 32 / 2 = 2 ^ 31 := by norm_num
    omega
  have halign := align_up_spec L (by omega)
  simp only [List.map_cons, List.sum_cons] at hsum
  have hu : (wp + 2 ^ k - rp) % 2 ^ k < 2 ^ k := Nat.mod_lt _ hC
  have hne : rp ≠ wp := by
    intro he
    rw [he, show wp + 2 ^ k - wp = 2 ^ k from by omega, Nat.mod_self] at hsum
    omega
  have hsRest : (rest.map align_up).sum =
      (wp + 2 ^ k - (rp + align_up L) % 2 ^ k) % 2 ^ k :=
    used_shift k rp wp (align_up L) ((rest.map align_up).sum) hrpC hwpC hsum
  have hag2 : ∀ i, i < (rest.map align_up).sum →
      (ringWrite data (2 ^ k - 1) rp
        (List.replicate (align_up L) 0)).getD
          (((rp + align_up L) % 2 ^ k + i) % 2 ^ k) 0 =
        data.getD (((rp + align_up L) % 2 ^ k + i) % 2 ^ k) 0 := by
    intro i hi
    have hiu : align_up L + i < 2 ^ k := by
      rw [hsRest] at hi
      have := Nat.mod_le (wp + 2 ^ k - (rp + align_up L) % 2 ^ k) (2 ^ k)
      omega
    rw [Nat.mod_add_mod, show rp + align_up L + i = rp + (align_up L + i)
      from by omega]
    apply ringWrite_getD_ge k data rp _ _ hlen (by simp; omega)
      (Nat.mod_lt _ hC)
    rw [circ_add _ _ _ hC, Nat.mod_eq_of_lt (by omega)]
    simp
  have hagree := chain_agree k hk data _ rest ((rp + align_up L) % 2 ^ k)
    hrest hag2
  have hread := unilog_read_entry k ⟨⟨wp, rp, 2 ^ k, data⟩, ml⟩ outb bs
    level0 ts0 rfl hk hlen hrpC hne (by simp only []; rw [hw]; exact h12)
    (by simp only []; rw [hw]; exact hL2) hbs hout
  simp only [] at hread
  rw [hw] at hread
  refine ⟨hread, ⟨hk, ?_, Nat.mod_lt _ hC, hwpC, ?_, hagree.1, ?_⟩, hagree.2⟩
  · rw [ringWrite_length]; exact hlen
  · exact ringWrite_bytes_lt _ data _ rp hbytes
      (fun b hb => by rw [List.eq_of_mem_replicate hb]; omega)
  · rw [hsRest]

theorem entriesAux_eq_chain (k : Nat) (data : List Nat) (lens : List Nat) :
    ∀ (rp wp fuel : Nat), k ≤ 32 → rp < 2 ^ k → wp < 2 ^ k →
      chainOK data (2 ^ k) rp lens →
      (lens.map align_up).sum = (wp + 2 ^ k - rp) % 2 ^ k →
      lens.length ≤ fuel →
      entriesAux data (2 ^ k) rp wp fuel = chainEntries data (2 ^ k) rp lens := by
  induction lens with
  | nil =>
      intro rp wp fuel hk hrp hwp _ hsum _
      have hC : 0 < 2 ^ k := Nat.two_pow_pos k
      have h0 : (wp + 2 ^ k - rp) % 2 ^ k = 0 := by
        simp only [List.map_nil, List.sum_nil] at hsum
        omega
      have heq : rp = wp := by
        have h1 := (mod_eq_zero_iff_between (2 ^ k) (wp + 2 ^ k - rp) hC
          (by omega) (by omega)).mp h0
        omega
      cases fuel with
      | zero => rfl
      | succ m => simp [entriesAux, heq, chainEntries]
  | cons L rest ih =>
      intro rp wp fuel hk hrp hwp hOK hsum hfuel
      obtain ⟨hw, h12, hL2, hrest⟩ := hOK
      have hC : 0 < 2 ^ k := Nat.two_pow_pos k
      have hC32 : 2 ^ k ≤ 2 ^ 32 := Nat.pow_le_pow_right (by omega) hk
      have hC2 : 2 ^ k / 2 ≤ 2 ^ 31 := by
        have h32 : (2 : Nat) ^ 32 / 2 = 2 ^ 31 := by norm_num
        omega
      have halign := align_up_spec L (by omega)
      simp only [List.map_cons, List.sum_cons] at hsum
      have hu : (wp + 2 ^ k - rp) % 2 ^ k < 2 ^ k := Nat.mod_lt _ hC
      have hne : rp ≠ wp := by
        intro he
        rw [he, show wp + 2 ^ k - wp = 2 ^ k from by omega, Nat.mod_self]
          at hsum
        omega
      cases fuel with
      | zero => simp at hfuel
      | succ m =>
          simp only [entriesAux]
          rw [if_neg hne, hw]
          show _ :: _ = _ :: _
          congr 1
          exact ih ((rp + align_up L) % 2 ^ k) wp m hk (Nat.mod_lt _ hC) hwp
            hrest
            (used_shift k rp wp (align_up L) ((rest.map align_up).sum)
              hrp hwp hsum)
            (by simpa using Nat.succ_le_succ_iff.mp hfuel)

theorem ringEntries_eq (k : Nat) (wp rp : Nat) (data : List Nat) (ml : Nat)
    (lens : List Nat) (hWF : WFdata k data rp wp lens) :
    ringEntries ⟨⟨wp, rp, 2 ^ k, data⟩, ml⟩ =
      chainEntries data (2 ^ k) rp lens := by
  obtain ⟨hk, hlen, hrp, hwp, hbytes, hchain, hsum⟩ := hWF
  have hC : 0 < 2 ^ k := Nat.two_pow_pos k
  have h12 := chainOK_length_le k data lens hk rp hchain
  have hu : (wp + 2 ^ k - rp) % 2 ^ k < 2 ^ k := Nat.mod_lt _ hC
  simp only [ringEntries]
  exact entriesAux_eq_chain k data lens rp wp (2 ^ k) hk hrp hwp hchain hsum
    (by omega)

theorem stepOp_sound (k : Nat) (l : unilog_t) (op : Op)
    (hWF : WF k l) (hop : OpWF op) :
    WF k (stepOp l op).1 ∧
    (stepOp l op).2.2.toList ++ ringEntries (stepOp l op).1 =
      ringEntries l ++ (stepOp l op).2.1.toList := by
  obtain ⟨⟨wp, rp, C0, data⟩, ml⟩ := l
  obtain ⟨hcap, lens, hWFd⟩ := hWF
  simp only [] at hcap hWFd
  subst hcap
  have hWFd' := hWFd
  obtain ⟨hk, hlen, hrpC, hwpC, hbytes, hchain, hsum⟩ := hWFd'
  have hC : 0 < 2 ^ k := Nat.two_pow_pos k
  have hC32 : 2 ^ k ≤ 2 ^ 32 := Nat.pow_le_pow_right (by omega) hk
  have hC2 : 2 ^ k / 2 ≤ 2 ^ 31 := by
    have h32 : (2 : Nat) ^ 32 / 2 = 2 ^ 31 := by norm_num
    omega
  cases op with
  | write level ts payload =>
      simp only [OpWF] at hop
      by_cases hlvl : level < ml
      · have hr := unilog_write_drop ⟨⟨wp, rp, 2 ^ k, data⟩, ml⟩ level ts
          payload hlvl
        have hcond : ¬((UNILOG_OK : Int) = UNILOG_OK ∧ ml ≤ level) := by
          intro h; exact absurd h.2 (by omega)
        have hstep : stepOp ⟨⟨wp, rp, 2 ^ k, data⟩, ml⟩
            (.write level ts payload) =
            (⟨⟨wp, rp, 2 ^ k, data⟩, ml⟩, none, none) := by
          simp [stepOp, unilog_write_raw, hr, show ¬ ml ≤ level from by omega]
        rw [hstep]
        exact ⟨⟨rfl, lens, hWFd⟩, by simp⟩
      · by_cases hsz : 2 ^ k / 2 < 12 + payload.length
        · have hr := unilog_write_oversize ⟨⟨wp, rp, 2 ^ k, data⟩, ml⟩ level ts
            payload (Nat.not_lt.mp hlvl) hsz (by omega)
          have hstep : stepOp ⟨⟨wp, rp, 2 ^ k, data⟩, ml⟩
              (.write level ts payload) =
              (⟨⟨wp, rp, 2 ^ k, data⟩, ml⟩, none, none) := by
            simp [stepOp, unilog_write_raw, hr,
              show (UNILOG_ERR_INVALID : Int) ≠ UNILOG_OK from by decide]
          rw [hstep]
          exact ⟨⟨rfl, lens, hWFd⟩, by simp⟩
        · by_cases hfull : 2 ^ k - (wp + 2 ^ k - rp) % 2 ^ k - 1 <
              align_up (12 + payload.length)
          · have hr := unilog_write_full k ⟨⟨wp, rp, 2 ^ k, data⟩, ml⟩ level ts
              payload rfl hk hrpC (Nat.not_lt.mp hlvl) (by omega) hfull
            have hstep : stepOp ⟨⟨wp, rp, 2 ^ k, data⟩, ml⟩
                (.write level ts payload) =
                (⟨⟨wp, rp, 2 ^ k, data⟩, ml⟩, none, none) := by
              simp [stepOp, unilog_write_raw, hr,
                show (UNILOG_ERR_FULL : Int) ≠ UNILOG_OK from by decide]
            rw [hstep]
            exact ⟨⟨rfl, lens, hWFd⟩, by simp⟩
          · have hr := unilog_write_ok k ⟨⟨wp, rp, 2 ^ k, data⟩, ml⟩ level ts
              payload rfl hk hlen hrpC (Nat.not_lt.mp hlvl) (by omega)
              (show align_up (12 + payload.length) ≤
                2 ^ k - (wp + 2 ^ k - rp) % 2 ^ k - 1 from by omega)
            have hWW := WF_write k data rp wp lens level ts payload hWFd
              (by omega) (by omega)
            have hstep : stepOp ⟨⟨wp, rp, 2 ^ k, data⟩, ml⟩
                (.write level ts payload) =
                (⟨⟨(wp + align_up (12 + payload.length)) % 2 ^ k, rp, 2 ^ k,
                    ringWrite data (2 ^ k - 1) wp
                      (entryBytes level ts payload)⟩, ml⟩,
                 some (recordedEntry level ts payload), none) := by
              simp [stepOp, unilog_write_raw, hr, Nat.not_lt.mp hlvl]
            rw [hstep]
            refine ⟨⟨rfl, lens ++ [12 + payload.length], hWW.1⟩, ?_⟩
            have hre0 := ringEntries_eq k wp rp data ml lens hWFd
            have hre1 := ringEntries_eq k
              ((wp + align_up (12 + payload.length)) % 2 ^ k) rp
              (ringWrite data (2 ^ k - 1) wp (entryBytes level ts payload)) ml
              (lens ++ [12 + payload.length]) hWW.1
            simp only [Option.toList_some, Option.toList_none,
              List.nil_append, List.append_nil]
            rw [hre0, hre1, hWW.2]
            simp [recordedEntry]
  | read out_cap =>
      by_cases hbs : out_cap = 0
      · subst hbs
        have hr := unilog_read_zerocap ⟨⟨wp, rp, 2 ^ k, data⟩, ml⟩
          (List.replicate 0 0) 0 0
        simp only [List.replicate_zero] at hr
        have hstep : stepOp ⟨⟨wp, rp, 2 ^ k, data⟩, ml⟩ (.read 0) =
            (⟨⟨wp, rp, 2 ^ k, data⟩, ml⟩, none, none) := by
          simp [stepOp, hr,
            show ¬ (0 : Int) ≤ UNILOG_ERR_INVALID from by decide]
        rw [hstep]
        exact ⟨⟨rfl, lens, hWFd⟩, by simp⟩
      · cases lens with
        | nil =>
            have heq : rp = wp := by
              simp only [List.map_nil, List.sum_nil] at hsum
              have hu : (wp + 2 ^ k - rp) % 2 ^ k < 2 ^ k := Nat.mod_lt _ hC
              have h1 := (mod_eq_zero_iff_between (2 ^ k) (wp + 2 ^ k - rp) hC
                (by omega) (by omega)).mp hsum.symm
              omega
            have hr := unilog_read_empty ⟨⟨wp, rp, 2 ^ k, data⟩, ml⟩
              (List.replicate out_cap 0) out_cap 0 0 hbs heq
            have hstep : stepOp ⟨⟨wp, rp, 2 ^ k, data⟩, ml⟩ (.read out_cap) =
                (⟨⟨wp, rp, 2 ^ k, data⟩, ml⟩, none, none) := by
              simp [stepOp, hr,
                show ¬ (0 : Int) ≤ UNILOG_ERR_EMPTY from by decide]
            rw [hstep]
            exact ⟨⟨rfl, [], hWFd⟩, by simp⟩
        | cons L rest =>
            have hWR := WF_read k data rp wp L rest ml
              (List.replicate out_cap 0) out_cap 0 0 hWFd (by omega) (by simp)
            have hstep : stepOp ⟨⟨wp, rp, 2 ^ k, data⟩, ml⟩ (.read out_cap) =
                (⟨⟨wp, (rp + align_up L) % 2 ^ k, 2 ^ k,
                    ringWrite data (2 ^ k - 1) rp
                      (List.replicate (align_up L) 0)⟩, ml⟩,
                 none,
                 (ringEntries ⟨⟨wp, rp, 2 ^ k, data⟩, ml⟩).head?) := by
              simp [stepOp, hWR.1, Int.natCast_nonneg]
            rw [hstep]
            refine ⟨⟨rfl, rest, hWR.2.1⟩, ?_⟩
            have hre0 := ringEntries_eq k wp rp data ml (L :: rest) hWFd
            have hre1 := ringEntries_eq k wp ((rp + align_up L) % 2 ^ k)
              (ringWrite data (2 ^ k - 1) rp (List.replicate (align_up L) 0))
              ml rest hWR.2.1
            simp only [Option.toList_none, List.append_nil]
            rw [hre0, hre1, hWR.2.2]
            simp [chainEntries]
  | setLevel v =>
      have hstep : stepOp ⟨⟨wp, rp, 2 ^ k, data⟩, ml⟩ (.setLevel v) =
          (⟨⟨wp, rp, 2 ^ k, data⟩, v⟩, none, none) := rfl
      rw [hstep]
      refine ⟨⟨rfl, lens, hWFd⟩, ?_⟩
      simp [ringEntries]

theorem runTrace_sound (k : Nat) (ops : List Op) :
    ∀ l, WF k l → (∀ op ∈ ops, OpWF op) →
      WF k (runTrace l ops).1 ∧
      (runTrace l ops).2.2 ++ ringEntries (runTrace l ops).1 =
        ringEntries l ++ (runTrace l ops).2.1 := by
  induction ops with
  | nil =>
      intro l hWF _
      exact ⟨hWF, by simp [runTrace]⟩
  | cons op ops ih =>
      intro l hWF hops
      have hstep := stepOp_sound k l op hWF (hops op (by simp))
      have hrest := ih (stepOp l op).1 hstep.1
        (fun o ho => hops o (by simp [ho]))
      simp only [runTrace]
      refine ⟨hrest.1, ?_⟩
      rw [List.append_assoc, hrest.2, ← List.append_assoc, hstep.2,
        List.append_assoc]

/-- C2: exactly-once in-order delivery.  First conjunct: starting from a
freshly initialized ring of capacity `2^k`, after any sequence of write,
read and set-level operations, the entries consumed by successful reads
followed by the entries still queued in the ring equal, as a list, exactly
the entries recorded by the successful threshold-passing writes — so every
recorded entry is delivered at most once, in producer-reservation order,
none is lost or overwritten, and once the queue drains the consumed list is
exactly the recorded list.  Second conjunct: a write whose aligned entry
size exceeds the free space `C - used - 1` returns FULL and leaves the
logger (ring bytes and both positions) unchanged. -/
theorem C2_exactly_once_in_order :
    (∀ (k : Nat) (l0 : unilog_t) (ops : List Op),
      k ≤ 32 →
      (unilog_init true true (2 ^ k)).2 = some l0 →
      (∀ op ∈ ops, OpWF op) →
      (runTrace l0 ops).2.2 ++ ringEntries (runTrace l0 ops).1 =
        (runTrace l0 ops).2.1) ∧
    (∀ (k : Nat) (l : unilog_t) (level timestamp : Nat) (msg : List Nat),
      l.buffer.capacity = 2 ^ k → k ≤ 32 →
      l.buffer.read_pos < 2 ^ k →
      l.min_level ≤ level →
      12 + msg.length ≤ 2 ^ k / 2 →
      2 ^ k - (l.buffer.write_pos + 2 ^ k - l.buffer.read_pos) % 2 ^ k - 1 <
        align_up (12 + msg.length) →
      unilog_write_internal (some l) level timestamp (some msg) =
        (UNILOG_ERR_FULL, some l)) := by
  constructor
  · intro k l0 ops hk hinit hops
    have hi : unilog_init true true (2 ^ k) =
        (UNILOG_OK, some ⟨⟨0, 0, 2 ^ k, List.replicate (2 ^ k) 0⟩,
          UNILOG_LEVEL_TRACE⟩) := by
      simp [unilog_init, is_power_of_2_two_pow]
    rw [hi] at hinit
    simp only [Option.some.injEq] at hinit
    subst hinit
    have hC : 0 < 2 ^ k := Nat.two_pow_pos k
    have hWFd0 : WFdata k (List.replicate (2 ^ k) 0) 0 0 [] := by
      refine ⟨hk, by simp, hC, hC, ?_, trivial, ?_⟩
      · intro b hb; rw [List.eq_of_mem_replicate hb]; omega
      · simp [Nat.mod_self]
    have h := runTrace_sound k ops
      ⟨⟨0, 0, 2 ^ k, List.replicate (2 ^ k) 0⟩, UNILOG_LEVEL_TRACE⟩
      ⟨rfl, [], hWFd0⟩ hops
    have hre0 : ringEntries
        ⟨⟨0, 0, 2 ^ k, List.replicate (2 ^ k) 0⟩, UNILOG_LEVEL_TRACE⟩ = [] :=
      ringEntries_eq k 0 0 (List.replicate (2 ^ k) 0) UNILOG_LEVEL_TRACE []
        hWFd0
    have h2 := h.2
    rw [hre0, List.nil_append] at h2
    exact h2
  · intro k l level timestamp msg hcap hk hrp hlvl hsz hfull
    exact unilog_write_full k l level timestamp msg hcap hk hrp hlvl hsz hfull

/-- Witness for C2: a concrete trace (one write of payload `[65]` at level 2,
timestamp 5, then one read with an 8-byte buffer) on a capacity-16 ring, on
which the consumed entries followed by the still-queued entries equal the
recorded entries; and a concrete FULL write on a capacity-32 ring with 28
bytes used, which leaves the logger unchanged. -/
theorem C2_exactly_once_in_order_witness :
    ((runTrace ⟨⟨0, 0, 16, List.replicate 16 0⟩, 0⟩
        [Op.write 2 5 [65], Op.read 8]).2.2 ++
      ringEntries (runTrace ⟨⟨0, 0, 16, List.replicate 16 0⟩, 0⟩
        [Op.write 2 5 [65], Op.read 8]).1 =
      (runTrace ⟨⟨0, 0, 16, List.replicate 16 0⟩, 0⟩
        [Op.write 2 5 [65], Op.read 8]).2.1) ∧
    (unilog_write_internal
        (some ⟨⟨28, 0, 32, List.replicate 32 0⟩, 0⟩) 1 7 (some []) =
      (UNILOG_ERR_FULL, some ⟨⟨28, 0, 32, List.replicate 32 0⟩, 0⟩)) :=
  ⟨C2_exactly_once_in_order.1 4 ⟨⟨0, 0, 16, List.replicate 16 0⟩, 0⟩
      [Op.write 2 5 [65], Op.read 8] (by decide) (by decide)
      (by
        intro op hop
        fin_cases hop
        · show [65].length + 12 < 2 ^ 32
          decide
        · trivial),
   C2_exactly_once_in_order.2 5 ⟨⟨28, 0, 32, List.replicate 32 0⟩, 0⟩ 1 7 []
      (by decide) (by decide) (by decide) (by decide) (by decide) (by decide)⟩
